import Mathlib

/-!
Shallow embedding of the node-hierarchy and export core of the npxpy
repository (src/npxpy/nodes/node.py, src/npxpy/nodes/project.py,
src/npxpy/resources.py, src/npxpy/nodes/space.py,
src/npxpy/nodes/aligners.py).

Python objects live in a store: object identity is a natural number and the
store maps identities to per-object field records.  Mutation is explicit
state passing.  Unbounded Python while-loops and recursions are fuel-indexed
and return none when the fuel runs out, which models divergence of the
original loop.
-/

namespace Npx

/-- Per-object state of a Node instance (Node.__init__ in
src/npxpy/nodes/node.py).  ntype and nname model the self._type and
self.name attributes; pyid models self.id = str(uuid.uuid4()), drawn from a
fresh-value counter of the store.  position, rotation, properties and
geometry are mutable containers in Python, so they are modelled as
references (posRef, rotRef, propRef, geomRef) into a heap, which makes the
aliasing created by copy.copy observable.  The list-valued bookkeeping
fields (children_nodes, parents_nodes, all_descendants, all_ancestors) are
never shared between two distinct live nodes (each one is freshly rebound
at construction, inside add_child and in both copy modes), so they are
modelled as plain values.  parent models the attribute read by
_has_ancestor_of_type via getattr(current_node, "parent", None); no code in
the repository ever assigns a parent attribute, so it is none in every
reachable state. -/
structure NodeData where
  ntype : String
  nname : String
  pyid : Nat
  posRef : Nat
  rotRef : Nat
  propRef : Nat
  geomRef : Nat
  children_nodes : List Nat
  parents_nodes : List Nat
  all_descendants : List Nat
  all_ancestors : List Nat
  parent : Option Nat
deriving DecidableEq

/-- Field record of a store address at which no Node object lives. -/
def defaultNodeData : NodeData :=
  { ntype := "", nname := "", pyid := 0, posRef := 0, rotRef := 0,
    propRef := 0, geomRef := 0, children_nodes := [], parents_nodes := [],
    all_descendants := [], all_ancestors := [], parent := none }

/-- The object store.  alloc lists the addresses at which Node instances
live; nextObj, nextUuid and nextRef are the fresh-value counters for object
identities, uuid4 values and container references; listHeap holds the
contents of the position and rotation containers. -/
structure St where
  alloc : List Nat
  nextObj : Nat
  nextUuid : Nat
  nextRef : Nat
  listHeap : Nat → List Int
  data : Nat → NodeData

/-- Store with no objects. -/
def emptySt : St :=
  { alloc := [], nextObj := 0, nextUuid := 0, nextRef := 0,
    listHeap := fun _ => [], data := fun _ => defaultNodeData }

/-- Overwrite the field record of one object. -/
def setData (s : St) (o : Nat) (nd : NodeData) : St :=
  { s with data := Function.update s.data o nd }

/-- Node.__init__ (node.py lines 38 to 69): allocate a fresh object with a
fresh uuid, the given type tag, name, position and rotation (stored in
freshly allocated containers), no children and no parents.  The line
self.all_descendants = self._generate_all_descendants() runs the stack
traversal on a node without children and yields the empty list, and
self.all_ancestors is assigned the empty list directly. -/
def newNode (s : St) (t nm : String) (pos rot : List Int) : St × Nat :=
  let o := s.nextObj
  let nd : NodeData :=
    { ntype := t, nname := nm, pyid := s.nextUuid,
      posRef := s.nextRef, rotRef := s.nextRef + 1,
      propRef := s.nextRef + 2, geomRef := s.nextRef + 3,
      children_nodes := [], parents_nodes := [],
      all_descendants := [], all_ancestors := [], parent := none }
  ({ alloc := s.alloc ++ [o], nextObj := o + 1, nextUuid := s.nextUuid + 1,
     nextRef := s.nextRef + 4,
     listHeap := fun r =>
       if r = s.nextRef then pos
       else if r = s.nextRef + 1 then rot
       else s.listHeap r,
     data := Function.update s.data o nd }, o)

/-- Child adjacency of the store: the children_nodes field. -/
def childAdj (s : St) : Nat → List Nat := fun n => (s.data n).children_nodes

/-- Parent adjacency of the store: the parents_nodes field. -/
def parentAdj (s : St) : Nat → List Nat := fun n => (s.data n).parents_nodes

/-- Reachability in one or more steps along an adjacency function.  This is
the specification-side notion of repeated child-expansion (respectively
parent-expansion). -/
inductive Reaches (adj : Nat → List Nat) : Nat → Nat → Prop
  | step {a b : Nat} : b ∈ adj a → Reaches adj a b
  | trans {a b c : Nat} : b ∈ adj a → Reaches adj b c → Reaches adj a c

theorem reaches_iff (adj : Nat → List Nat) (a x : Nat) :
    Reaches adj a x ↔ x ∈ adj a ∨ ∃ b ∈ adj a, Reaches adj b x := by
  constructor
  · intro h
    cases h with
    | step h => exact Or.inl h
    | trans h h' => exact Or.inr ⟨_, h, h'⟩
  · intro h
    rcases h with h | ⟨b, hb, hr⟩
    · exact Reaches.step h
    · exact Reaches.trans hb hr

theorem reaches_trans (adj : Nat → List Nat) {a b c : Nat}
    (h1 : Reaches adj a b) (h2 : Reaches adj b c) : Reaches adj a c := by
  induction h1 with
  | step h => exact Reaches.trans h h2
  | trans h _ ih => exact Reaches.trans h (ih h2)

theorem reaches_snoc (adj : Nat → List Nat) {a b c : Nat}
    (h1 : Reaches adj a b) (h2 : c ∈ adj b) : Reaches adj a c :=
  reaches_trans adj h1 (Reaches.step h2)

theorem reaches_mono (adj adj' : Nat → List Nat)
    (hsub : ∀ x y, y ∈ adj x → y ∈ adj' x) {a b : Nat}
    (h : Reaches adj a b) : Reaches adj' a b := by
  induction h with
  | step h => exact Reaches.step (hsub _ _ h)
  | trans h _ ih => exact Reaches.trans (hsub _ _ h) ih

/-- Reachability along a mirrored pair of adjacencies flips direction. -/
theorem reaches_flip (adj padj : Nat → List Nat)
    (hm : ∀ a b, a ∈ adj b ↔ b ∈ padj a) {a b : Nat}
    (h : Reaches adj a b) : Reaches padj b a := by
  induction h with
  | step h => exact Reaches.step ((hm _ _).mp h)
  | trans h _ ih => exact reaches_snoc padj ih ((hm _ _).mp h)

theorem reaches_flip_iff (adj padj : Nat → List Nat)
    (hm : ∀ a b, a ∈ adj b ↔ b ∈ padj a) (a b : Nat) :
    Reaches adj a b ↔ Reaches padj b a := by
  constructor
  · exact reaches_flip adj padj hm
  · exact reaches_flip padj adj (fun x y => (hm y x).symm)

/-- Adding one edge p to c to an adjacency: reachability in the extended
graph decomposes, provided the new edge closes no cycle at c. -/
theorem reaches_add_edge (adj adj' : Nat → List Nat) (p c : Nat)
    (hadj : ∀ x, adj' x = if x = p then adj x ++ [c] else adj x)
    (hnc : ¬ Reaches adj c p) (hne : c ≠ p) : ∀ n x,
    Reaches adj' n x ↔
      Reaches adj n x ∨ ((n = p ∨ Reaches adj n p) ∧ (x = c ∨ Reaches adj c x)) := by
  have hmem : ∀ x y, y ∈ adj' x ↔ y ∈ adj x ∨ (x = p ∧ y = c) := by
    intro x y
    rw [hadj x]
    by_cases hx : x = p
    · subst hx; simp
    · simp [hx]
  intro n x
  constructor
  · intro h
    induction h with
    | @step a b h =>
      rcases (hmem _ _).mp h with h' | ⟨rfl, rfl⟩
      · exact Or.inl (Reaches.step h')
      · exact Or.inr ⟨Or.inl rfl, Or.inl rfl⟩
    | @trans a b x h _ ih =>
      rcases (hmem _ _).mp h with h' | ⟨rfl, rfl⟩
      · rcases ih with ih | ⟨hb, hx⟩
        · exact Or.inl (Reaches.trans h' ih)
        · refine Or.inr ⟨?_, hx⟩
          rcases hb with rfl | hb
          · exact Or.inr (Reaches.step h')
          · exact Or.inr (Reaches.trans h' hb)
      · rcases ih with ih | ⟨hb, _⟩
        · exact Or.inr ⟨Or.inl rfl, Or.inr ih⟩
        · rcases hb with rfl | hb
          · exact absurd rfl hne
          · exact absurd hb hnc
  · intro h
    have hsub : ∀ u v, v ∈ adj u → v ∈ adj' u := by
      intro u v hv; exact (hmem u v).mpr (Or.inl hv)
    have hedge : c ∈ adj' p := (hmem p c).mpr (Or.inr ⟨rfl, rfl⟩)
    rcases h with h | ⟨hn, hx⟩
    · exact reaches_mono adj adj' hsub h
    · have hpc : Reaches adj' n c := by
        rcases hn with rfl | hn
        · exact Reaches.step hedge
        · exact reaches_snoc adj' (reaches_mono adj adj' hsub hn) hedge
      rcases hx with rfl | hx
      · exact hpc
      · exact reaches_trans adj' hpc (reaches_mono adj adj' hsub hx)

/-- Reachability from inside a set closed under the adjacency stays inside. -/
theorem reaches_closed (adj : Nat → List Nat) (good : Nat → Prop)
    (hg : ∀ x, good x → ∀ y ∈ adj x, good y) {a b : Nat}
    (ha : good a) (h : Reaches adj a b) : good b := by
  induction h with
  | step h => exact hg _ ha _ h
  | trans h _ ih => exact ih (hg _ ha _ h)

/-- Stack-based graph traversal used by Node._generate_all_descendants and
Node._generate_all_ancestors (node.py lines 283 to 311): pop the LAST
element of nodes_to_check (Python list.pop), extend the accumulator with
its adjacency, push the adjacency, repeat while the stack is nonempty.  The
fuel bounds the number of loop iterations; none models divergence of the
Python while-loop. -/
def traverseAux (adj : Nat → List Nat) : Nat → List Nat → List Nat → Option (List Nat)
  | _, acc, [] => some acc
  | 0, _, _ :: _ => none
  | fuel + 1, acc, x :: xs =>
      match (x :: xs).getLast? with
      | none => some acc
      | some cur =>
          traverseAux adj fuel (acc ++ adj cur) ((x :: xs).dropLast ++ adj cur)

/-- A terminated traversal collects exactly the accumulator plus everything
reachable from the stack. -/
theorem traverseAux_spec (adj : Nat → List Nat) : ∀ (fuel : Nat)
    (acc stack R : List Nat), traverseAux adj fuel acc stack = some R →
    ∀ x, x ∈ R ↔ x ∈ acc ∨ ∃ sn ∈ stack, Reaches adj sn x := by
  intro fuel
  induction fuel with
  | zero =>
    intro acc stack R h x
    cases stack with
    | nil =>
      simp only [traverseAux, Option.some.injEq] at h
      subst h; simp
    | cons a as => simp [traverseAux] at h
  | succ n ih =>
    intro acc stack R h x
    cases stack with
    | nil =>
      simp only [traverseAux, Option.some.injEq] at h
      subst h; simp
    | cons a as =>
      have hne : (a :: as) ≠ [] := by simp
      have hlast : (a :: as).getLast? = some ((a :: as).getLast hne) :=
        List.getLast?_eq_getLast _ hne
      rw [traverseAux, hlast] at h
      set cur := (a :: as).getLast hne with hcur
      have hstk : (a :: as).dropLast ++ [cur] = a :: as :=
        List.dropLast_append_getLast hne
      have ihx := ih (acc ++ adj cur) ((a :: as).dropLast ++ adj cur) R h x
      rw [ihx]
      constructor
      · rintro (hx | ⟨sn, hsn, hr⟩)
        · rcases List.mem_append.mp hx with hx | hx
          · exact Or.inl hx
          · refine Or.inr ⟨cur, ?_, Reaches.step hx⟩
            rw [← hstk]; exact List.mem_append_right _ (by simp)
        · rcases List.mem_append.mp hsn with hsn | hsn
          · refine Or.inr ⟨sn, ?_, hr⟩
            rw [← hstk]; exact List.mem_append_left _ hsn
          · refine Or.inr ⟨cur, ?_, Reaches.trans hsn hr⟩
            rw [← hstk]; exact List.mem_append_right _ (by simp)
      · rintro (hx | ⟨sn, hsn, hr⟩)
        · exact Or.inl (List.mem_append_left _ hx)
        · rw [← hstk] at hsn
          rcases List.mem_append.mp hsn with hsn | hsn
          · exact Or.inr ⟨sn, List.mem_append_left _ hsn, hr⟩
          · have hsn' : sn = cur := by simpa using hsn
            subst hsn'
            rcases (reaches_iff adj cur x).mp hr with hx | ⟨b, hb, hbr⟩
            · exact Or.inl (List.mem_append_right _ hx)
            · exact Or.inr ⟨b, List.mem_append_right _ hb, hbr⟩

/-- A terminated traversal implies that no stack element lies on a cycle. -/
theorem traverseAux_no_cycle (adj : Nat → List Nat) : ∀ (fuel : Nat)
    (acc stack R : List Nat), traverseAux adj fuel acc stack = some R →
    ∀ sn ∈ stack, ¬ Reaches adj sn sn := by
  intro fuel
  induction fuel with
  | zero =>
    intro acc stack R h sn hsn
    cases stack with
    | nil => simp at hsn
    | cons a as => simp [traverseAux] at h
  | succ n ih =>
    intro acc stack R h sn hsn hcy
    cases stack with
    | nil => simp at hsn
    | cons a as =>
      have hne : (a :: as) ≠ [] := by simp
      have hlast : (a :: as).getLast? = some ((a :: as).getLast hne) :=
        List.getLast?_eq_getLast _ hne
      rw [traverseAux, hlast] at h
      set cur := (a :: as).getLast hne with hcur
      have hstk : (a :: as).dropLast ++ [cur] = a :: as :=
        List.dropLast_append_getLast hne
      have ih' := ih (acc ++ adj cur) ((a :: as).dropLast ++ adj cur) R h
      rw [← hstk] at hsn
      rcases List.mem_append.mp hsn with hsn | hsn
      · exact ih' sn (List.mem_append_left _ hsn) hcy
      · have hsn' : sn = cur := by simpa using hsn
        rw [hsn'] at hcy
        rcases (reaches_iff adj cur cur).mp hcy with hx | ⟨b, hb, hbr⟩
        · exact ih' cur (List.mem_append_right _ hx) hcy
        · have hbb : Reaches adj b b := reaches_snoc adj hbr hb
          exact ih' b (List.mem_append_right _ hb) hbb

/-- If every node of an adjacency-closed set has a nonempty adjacency, a
traversal whose stack lies inside the set never terminates. -/
theorem traverseAux_none_of_closed (adj : Nat → List Nat) (good : Nat → Prop)
    (hg : ∀ x, good x → adj x ≠ [] ∧ ∀ y ∈ adj x, good y) : ∀ (fuel : Nat)
    (acc stack : List Nat), stack ≠ [] → (∀ x ∈ stack, good x) →
    traverseAux adj fuel acc stack = none := by
  intro fuel
  induction fuel with
  | zero =>
    intro acc stack hne hgood
    cases stack with
    | nil => exact absurd rfl hne
    | cons a as => simp [traverseAux]
  | succ n ih =>
    intro acc stack hne hgood
    cases stack with
    | nil => exact absurd rfl hne
    | cons a as =>
      have hne' : (a :: as) ≠ [] := by simp
      have hlast : (a :: as).getLast? = some ((a :: as).getLast hne') :=
        List.getLast?_eq_getLast _ hne'
      rw [traverseAux, hlast]
      set cur := (a :: as).getLast hne' with hcur
      have hstk : (a :: as).dropLast ++ [cur] = a :: as :=
        List.dropLast_append_getLast hne'
      have hcg : good cur := hgood cur (List.getLast_mem hne')
      refine ih (acc ++ adj cur) ((a :: as).dropLast ++ adj cur) ?_ ?_
      · intro habs
        rcases List.append_eq_nil.mp habs with ⟨_, h2⟩
        exact (hg cur hcg).1 h2
      · intro x hx
        rcases List.mem_append.mp hx with hx | hx
        · refine hgood x ?_
          rw [← hstk]; exact List.mem_append_left _ hx
        · exact (hg cur hcg).2 x hx

/-- Node._generate_all_ancestors (node.py lines 298 to 311): run the stack
traversal over the parents_nodes adjacency starting from the node itself. -/
def generate_all_ancestors (fuel : Nat) (s : St) (n : Nat) : Option (List Nat) :=
  traverseAux (parentAdj s) fuel [] [n]

/-- Node._generate_all_descendants (node.py lines 283 to 296): run the stack
traversal over the children_nodes adjacency starting from the node itself. -/
def generate_all_descendants (fuel : Nat) (s : St) (n : Nat) : Option (List Nat) :=
  traverseAux (childAdj s) fuel [] [n]

/-- While-loop body of Node._has_ancestor_of_type (node.py lines 159 to
176): check the current node, then continue with
getattr(current_node, "parent", None).  The fuel bounds the loop; it is
irrelevant in every reachable state because no code in the repository ever
assigns a parent attribute, so the loop stops after the starting node. -/
def hasAncestorAux (s : St) (t : String) : Nat → Option Nat → Bool
  | _, none => false
  | 0, some _ => false
  | fuel + 1, some cur =>
      if (s.data cur).ntype = t then true
      else hasAncestorAux s t fuel (s.data cur).parent

/-- Node._has_ancestor_of_type. -/
def has_ancestor_of_type (s : St) (n : Nat) (t : String) : Bool :=
  hasAncestorAux s t (s.nextObj + 1) (some n)

/-- Loop at node.py lines 121 to 124: for every node in the given worklist,
reassign its all_ancestors cache to a fresh run of
_generate_all_ancestors. -/
def regenAncestorsList (fuel : Nat) : St → List Nat → Option St
  | s, [] => some s
  | s, d :: rest =>
      match generate_all_ancestors fuel s d with
      | none => none
      | some l =>
          regenAncestorsList fuel
            (setData s d { s.data d with all_ancestors := l }) rest

/-- Loop at node.py lines 126 to 133: every ancestor in the given list gets
[child_node] + child_node.all_descendants appended to its all_descendants
cache; the right-hand side is re-read from the current state on every
iteration. -/
def extendAncDescList (c : Nat) : St → List Nat → St
  | s, [] => s
  | s, a :: rest =>
      extendAncDescList c
        (setData s a
          { s.data a with
            all_descendants :=
              (s.data a).all_descendants ++ [c] ++ (s.data c).all_descendants })
        rest

/-- First three in-place updates of the Node.add_child success path
(node.py lines 115 to 119): append self to the child's parents, append the
child to self's children, extend self's all_descendants by the child and
the child's current descendants. -/
def addChildPre (s : St) (self c : Nat) : St :=
  let s1 := setData s c
    { s.data c with parents_nodes := (s.data c).parents_nodes ++ [self] }
  let s2 := setData s1 self
    { s1.data self with
      children_nodes := (s1.data self).children_nodes ++ [c] }
  setData s2 self
    { s2.data self with
      all_descendants :=
        (s2.data self).all_descendants ++ [c] ++ (s2.data c).all_descendants }

/-- Success path of one Node.add_child loop iteration (node.py lines 115 to
157), entered after validation: the three in-place updates, then the
regeneration of the all_ancestors caches of the child and of all its
descendants (lines 121 to 124), then the extension of the all_descendants
caches of self's ancestors (lines 126 to 133).  The structure warning at
lines 150 to 155 is an effect-free print.  The final return self happens
inside the for-loop and is modelled in add_child. -/
def addChildMutate (fuel : Nat) (s : St) (self c : Nat) :
    Option (Except String St) :=
  let s3 := addChildPre s self c
  match regenAncestorsList fuel s3 ([c] ++ (s3.data c).all_descendants) with
  | none => none
  | some s4 =>
      some (Except.ok (extendAncDescList c s4 ((s4.data self).all_ancestors)))

/-- Validation chain plus mutation for a single candidate child (the body
of the for-loop of Node.add_child, node.py lines 91 to 157).  The hasattr
capability check holds exactly for store addresses at which a Node instance
lives.  Note that the elif chain skips the cycle check whenever the
candidate has type scene. -/
def addChildCore (fuel : Nat) (s : St) (self c : Nat) :
    Option (Except String St) :=
  if c ∉ s.alloc then
    some (Except.error
      "Only instances of nodes can be added as children to nodes!")
  else if (s.data self).ntype = "structure" then
    some (Except.error
      "Structure, Text and Lens are terminal nodes! They cannot have children!")
  else if (s.data c).ntype = "project" then
    some (Except.error "A project node can never be a child to any node!")
  else if (s.data c).ntype = "scene" then
    if has_ancestor_of_type s self "scene" then
      some (Except.error "Nested scenes are not allowed!")
    else addChildMutate fuel s self c
  else if self ∈ (s.data c).all_descendants then
    some (Except.error
      "This node cannot be added since it is a ancestor to the current node!")
  else addChildMutate fuel s self c

/-- Node.add_child(*child_nodes) (node.py lines 84 to 157).  The loop body
ends in an unconditional return self, so at most the first candidate is
processed; with an empty candidate list the function falls off the loop and
implicitly returns None.  The result carries the final state and the Python
return value (some self or none). -/
def add_child (fuel : Nat) (s : St) (self : Nat) :
    List Nat → Option (Except String (St × Option Nat))
  | [] => some (Except.ok (s, none))
  | c :: _ =>
      match addChildCore fuel s self c with
      | none => none
      | some (Except.error e) => some (Except.error e)
      | some (Except.ok s') => some (Except.ok (s', some self))

/-- Node._depth (node.py lines 363 to 378): follow the FIRST child
repeatedly, counting steps, until a node without children is reached.  The
fuel bounds the while-loop. -/
def depthAux (s : St) : Nat → Nat → Option Nat
  | 0, _ => none
  | fuel + 1, cur =>
      match (s.data cur).children_nodes with
      | [] => some 0
      | c :: _ => (depthAux s fuel c).map (· + 1)

/-- Python max(list, key=...) keeps the FIRST element attaining the maximal
key: a later element replaces the current best only when its key is
strictly larger. -/
def pyMaxGo : Nat → Nat → List (Nat × Nat) → Nat
  | best, _, [] => best
  | best, bestKey, (n, k) :: rest =>
      if bestKey < k then pyMaxGo n k rest else pyMaxGo best bestKey rest

/-- List comprehension over a fuel-indexed body: the whole comprehension
diverges when any element does. -/
def mapOpt (f : Nat → Option Nat) : List Nat → Option (List Nat)
  | [] => some []
  | x :: xs =>
      match f x with
      | none => none
      | some y =>
          match mapOpt f xs with
          | none => none
          | some ys => some (y :: ys)

/-- Node._find_grandest_grandchild (node.py lines 344 to 361): a node
without children is returned directly; otherwise recurse into every child
and take the max of the results keyed by Node._depth. -/
def fggAux (s : St) : Nat → Nat → Option Nat
  | 0, _ => none
  | fuel + 1, cur =>
      match (s.data cur).children_nodes with
      | [] => some cur
      | c :: cs =>
          match mapOpt (fggAux s fuel) (c :: cs) with
          | none => none
          | some cands =>
              match mapOpt (depthAux s (fuel + 1)) cands with
              | none => none
              | some keys =>
                  match cands.zip keys with
                  | [] => none
                  | (n0, k0) :: rest => some (pyMaxGo n0 k0 rest)

/-- Leaf reached from a node by following first children repeatedly. -/
def firstLeaf (s : St) : Nat → Nat → Option Nat
  | 0, _ => none
  | fuel + 1, cur =>
      match (s.data cur).children_nodes with
      | [] => some cur
      | c :: _ => firstLeaf s fuel c

/-- Node.append_node (node.py lines 334 to 342): find the grandest
grandchild starting from self, then add the node as its child. -/
def append_node (fuel : Nat) (s : St) (self x : Nat) :
    Option (Except String St) :=
  match fggAux s fuel self with
  | none => none
  | some g => addChildCore fuel s g x

/-- Extract the state of a successful add_child-style result. -/
def okState : Option (Except String St) → Option St
  | some (Except.ok s) => some s
  | _ => none

/-- Concrete store for claim C1: a group node 0 and two group nodes 1 and 2,
all three valid candidates for parent 0. -/
def c1base : St :=
  (newNode (newNode (newNode emptySt "group" "parent" [0, 0, 0] [0, 0, 0]).1
    "group" "childA" [0, 0, 0] [0, 0, 0]).1
    "group" "childB" [0, 0, 0] [0, 0, 0]).1

/-- State after the call add_child(childA, childB) on node 0. -/
def c1after : St :=
  (match add_child 9 c1base 0 [1, 2] with
   | some (Except.ok (s, _)) => s
   | _ => emptySt)

/-- C1: claimed, every valid candidate is appended in order and the call
returns the parent.  In the code the return self sits inside the for-loop,
so the call add_child(childA, childB) appends only childA (node 1), never
childB (node 2), and returns the parent after the first iteration. -/
theorem C1_add_child_processes_only_first_candidate :
    add_child 9 c1base 0 [1, 2] = some (Except.ok (c1after, some 0)) ∧
    (c1after.data 0).children_nodes = [1] ∧
    2 ∉ (c1after.data 0).children_nodes := by
  refine ⟨rfl, by decide, by decide⟩

/-- Concrete store for claim C2: scene node 0, group node 1, scene node 2. -/
def c2base : St :=
  (newNode (newNode (newNode emptySt "scene" "scene1" [0, 0, 0] [0, 0, 0]).1
    "group" "group1" [0, 0, 0] [0, 0, 0]).1
    "scene" "scene2" [0, 0, 0] [0, 0, 0]).1

/-- State after scene1.add_child(group1). -/
def c2mid : St := (okState (addChildCore 9 c2base 0 1)).getD emptySt

/-- State after the subsequent group1.add_child(scene2). -/
def c2after : St := (okState (addChildCore 9 c2mid 1 2)).getD emptySt

/-- C2: claimed, adding a scene under a node with a scene ancestor at any
depth raises a structural error.  _has_ancestor_of_type walks a parent
attribute that no code ever assigns, so only the node itself is inspected:
after scene1.add_child(group1), the call group1.add_child(scene2) succeeds
and attaches scene2 beneath scene1, instead of raising the nested-scene
error the claim requires. -/
theorem C2_nested_scene_accepted_at_depth :
    okState (addChildCore 9 c2base 0 1) = some c2mid ∧
    (c2mid.data 0).children_nodes = [1] ∧
    okState (addChildCore 9 c2mid 1 2) = some c2after ∧
    (c2after.data 1).children_nodes = [2] := by
  exact ⟨rfl, by decide, rfl, by decide⟩

/-- Concrete store for claim C3: scene node 0 (A), group nodes 1 (B) and
2 (C), with edges A to B and B to C built by two successful add_child
calls. -/
def c3base : St :=
  (newNode (newNode (newNode emptySt "scene" "A" [0, 0, 0] [0, 0, 0]).1
    "group" "B" [0, 0, 0] [0, 0, 0]).1
    "group" "C" [0, 0, 0] [0, 0, 0]).1

/-- State after A.add_child(B). -/
def c3ab : St := (okState (addChildCore 9 c3base 0 1)).getD emptySt

/-- State after B.add_child(C): the chain A to B to C. -/
def c3abc : St := (okState (addChildCore 9 c3ab 1 2)).getD emptySt

/-- Intermediate state of the failing call C.add_child(A): the store after
the three in-place updates that precede the ancestor-cache regeneration
loop (parents of A gain C, children of C gain A, all_descendants of C is
extended). -/
def c3s3 : St :=
  let s := c3abc
  let s1 := setData s 0
    { s.data 0 with parents_nodes := (s.data 0).parents_nodes ++ [2] }
  let s2 := setData s1 2
    { s1.data 2 with children_nodes := (s1.data 2).children_nodes ++ [0] }
  setData s2 2
    { s2.data 2 with
      all_descendants :=
        (s2.data 2).all_descendants ++ [0] ++ (s2.data 0).all_descendants }

/-- C3: claimed, when C is a descendant of A the call C.add_child(A) raises
a structural error for every node type of A and leaves the tree unchanged.
When A has type scene the elif chain of add_child skips the cycle check, so
validation passes; the call then mutates the tree and the ancestor-cache
regeneration loop never terminates (for every fuel the embedded call yields
none, the model of divergence), so no error is raised and the tree is not
left unchanged. -/
theorem C3_cycle_check_skipped_for_scene_candidate :
    (c3abc.data 0).all_descendants = [1, 2] ∧
    2 ∈ (c3abc.data 0).all_descendants ∧
    (∀ fuel : Nat, addChildCore fuel c3abc 2 0 = none) := by
  refine ⟨by decide, by decide, ?_⟩
  intro fuel
  have hadj : ∀ x, (x = 0 ∨ x = 1 ∨ x = 2) →
      parentAdj c3s3 x ≠ [] ∧ ∀ y ∈ parentAdj c3s3 x, (y = 0 ∨ y = 1 ∨ y = 2) := by
    intro x hx
    rcases hx with rfl | rfl | rfl
    · exact ⟨by decide, by decide⟩
    · exact ⟨by decide, by decide⟩
    · exact ⟨by decide, by decide⟩
  have hnone : traverseAux (parentAdj c3s3) fuel [] [0] = none := by
    refine traverseAux_none_of_closed (parentAdj c3s3)
      (fun x => x = 0 ∨ x = 1 ∨ x = 2) hadj fuel [] [0] (by simp) ?_
    intro x hx
    simp only [List.mem_singleton] at hx
    subst hx
    exact Or.inl rfl
  have hregen : regenAncestorsList fuel c3s3 ([0] ++ (c3s3.data 0).all_descendants) = none := by
    rw [show ([0] ++ (c3s3.data 0).all_descendants) = 0 :: [1, 2] from by decide]
    simp only [regenAncestorsList, generate_all_ancestors]
    rw [hnone]
  show (match regenAncestorsList fuel c3s3 ([0] ++ (c3s3.data 0).all_descendants) with
    | none => none
    | some s4 =>
        some (Except.ok (extendAncDescList 0 s4 ((s4.data 2).all_ancestors)))) = none
  rw [hregen]

theorem mapOpt_sound (f : Nat → Option Nat) : ∀ (l ys : List Nat),
    mapOpt f l = some ys → ∀ y ∈ ys, ∃ x ∈ l, f x = some y := by
  intro l
  induction l with
  | nil =>
    intro ys h y hy
    simp only [mapOpt, Option.some.injEq] at h
    subst h
    simp at hy
  | cons x xs ih =>
    intro ys h y hy
    rw [mapOpt] at h
    cases hfx : f x with
    | none => rw [hfx] at h; simp at h
    | some y0 =>
      rw [hfx] at h
      cases hrest : mapOpt f xs with
      | none => rw [hrest] at h; simp at h
      | some ys0 =>
        rw [hrest] at h
        simp only [Option.some.injEq] at h
        subst h
        rcases List.mem_cons.mp hy with rfl | hy
        · exact ⟨x, List.mem_cons_self x xs, hfx⟩
        · rcases ih ys0 hrest y hy with ⟨x', hx', hfx'⟩
          exact ⟨x', List.mem_cons_of_mem x hx', hfx'⟩

theorem mapOpt_cons (f : Nat → Option Nat) (c : Nat) (cs ys : List Nat)
    (h : mapOpt f (c :: cs) = some ys) :
    ∃ y0 tl, ys = y0 :: tl ∧ f c = some y0 ∧ mapOpt f cs = some tl := by
  rw [mapOpt] at h
  cases hfc : f c with
  | none => rw [hfc] at h; simp at h
  | some y0 =>
    rw [hfc] at h
    cases hrest : mapOpt f cs with
    | none => rw [hrest] at h; simp at h
    | some tl =>
      rw [hrest] at h
      simp only [Option.some.injEq] at h
      exact ⟨y0, tl, h.symm, rfl, rfl⟩

theorem pyMaxGo_mem : ∀ (l : List (Nat × Nat)) (b bk : Nat),
    pyMaxGo b bk l ∈ b :: l.map Prod.fst := by
  intro l
  induction l with
  | nil => intro b bk; simp [pyMaxGo]
  | cons p rest ih =>
    intro b bk
    obtain ⟨n, k⟩ := p
    rw [pyMaxGo]
    by_cases hk : bk < k
    · rw [if_pos hk]
      simp only [List.map_cons]
      exact List.mem_cons_of_mem b (ih n k)
    · rw [if_neg hk]
      simp only [List.map_cons]
      rcases List.mem_cons.mp (ih b bk) with h | h
      · exact List.mem_cons.mpr (Or.inl h)
      · exact List.mem_cons_of_mem _ (List.mem_cons_of_mem _ h)

theorem pyMaxGo_all_zero : ∀ (l : List (Nat × Nat)) (b : Nat),
    (∀ p ∈ l, p.2 = 0) → pyMaxGo b 0 l = b := by
  intro l
  induction l with
  | nil => intro b _; rfl
  | cons p rest ih =>
    intro b hz
    obtain ⟨n, k⟩ := p
    have hk : k = 0 := hz (n, k) (List.mem_cons_self _ _)
    subst hk
    rw [pyMaxGo, if_neg (lt_irrefl 0)]
    exact ih b (fun q hq => hz q (List.mem_cons_of_mem _ hq))

/-- Every result of _find_grandest_grandchild is a node without children
(the recursion bottoms out only at such nodes). -/
theorem fgg_leaf (s : St) : ∀ (fuel cur g : Nat),
    fggAux s fuel cur = some g → (s.data g).children_nodes = [] := by
  intro fuel
  induction fuel with
  | zero => intro cur g h; simp [fggAux] at h
  | succ n ih =>
    intro cur g h
    cases hch : (s.data cur).children_nodes with
    | nil =>
      simp only [fggAux, hch, Option.some.injEq] at h
      subst h
      exact hch
    | cons c cs =>
      simp only [fggAux, hch] at h
      cases hcands : mapOpt (fggAux s n) (c :: cs) with
      | none => rw [hcands] at h; simp at h
      | some cands =>
        rw [hcands] at h
        dsimp only at h
        cases hkeys : mapOpt (depthAux s (n + 1)) cands with
        | none => rw [hkeys] at h; simp at h
        | some keys =>
          rw [hkeys] at h
          dsimp only at h
          cases hzip : cands.zip keys with
          | nil => rw [hzip] at h; simp at h
          | cons p rest =>
            rw [hzip] at h
            dsimp only at h
            obtain ⟨n0, k0⟩ := p
            simp only [Option.some.injEq] at h
            have hmem : g ∈ n0 :: rest.map Prod.fst := h ▸ pyMaxGo_mem rest n0 k0
            have hgcands : g ∈ cands := by
              rcases List.mem_cons.mp hmem with rfl | hg
              · have : (g, k0) ∈ cands.zip keys := by
                  rw [hzip]; exact List.mem_cons_self _ _
                exact (List.of_mem_zip this).1
              · rcases List.mem_map.mp hg with ⟨q, hq, hq1⟩
                have : q ∈ cands.zip keys := by
                  rw [hzip]; exact List.mem_cons_of_mem _ hq
                exact hq1 ▸ (List.of_mem_zip this).1
            rcases mapOpt_sound (fggAux s n) (c :: cs) cands hcands g hgcands with
              ⟨child, _, hchild⟩
            exact ih child g hchild

/-- _find_grandest_grandchild collapses to following first children: every
recursive result is a childless node, Node._depth of a childless node is
zero, and Python max keeps the first element on key ties, so the recursion
always selects the first child's result. -/
theorem fgg_eq_firstLeaf (s : St) : ∀ (fuel cur g : Nat),
    fggAux s fuel cur = some g → firstLeaf s fuel cur = some g := by
  intro fuel
  induction fuel with
  | zero => intro cur g h; simp [fggAux] at h
  | succ n ih =>
    intro cur g h
    cases hch : (s.data cur).children_nodes with
    | nil =>
      simp only [fggAux, hch] at h
      simp only [firstLeaf, hch]
      exact h
    | cons c cs =>
      simp only [fggAux, hch] at h
      simp only [firstLeaf, hch]
      cases hcands : mapOpt (fggAux s n) (c :: cs) with
      | none => rw [hcands] at h; simp at h
      | some cands =>
        rw [hcands] at h
        dsimp only at h
        cases hkeys : mapOpt (depthAux s (n + 1)) cands with
        | none => rw [hkeys] at h; simp at h
        | some keys =>
          rw [hkeys] at h
          dsimp only at h
          rcases mapOpt_cons _ _ _ _ hcands with ⟨g0, tl, rfl, hg0, htl⟩
          have hg0leaf : (s.data g0).children_nodes = [] := fgg_leaf s n c g0 hg0
          have hzero : ∀ cand ∈ g0 :: tl, depthAux s (n + 1) cand = some 0 := by
            intro cand hcand
            have hcl : (s.data cand).children_nodes = [] := by
              rcases mapOpt_sound (fggAux s n) (c :: cs) (g0 :: tl) hcands cand hcand with
                ⟨child, _, hchild⟩
              exact fgg_leaf s n child cand hchild
            rw [depthAux, hcl]
          rcases mapOpt_cons _ _ _ _ hkeys with ⟨k0, ktl, rfl, hk0, hktl⟩
          have hk0z : k0 = 0 := by
            have := hzero g0 (List.mem_cons_self _ _)
            rw [this] at hk0
            exact (Option.some.injEq _ _ ▸ hk0).symm
          subst hk0z
          have hrestz : ∀ p ∈ tl.zip ktl, p.2 = 0 := by
            intro p hp
            have hp2 : p.2 ∈ ktl := (List.of_mem_zip hp).2
            rcases mapOpt_sound (depthAux s (n + 1)) (g0 :: tl) (0 :: ktl) hkeys p.2
              (List.mem_cons_of_mem _ hp2) with ⟨cand, hcand, hd⟩
            rw [hzero cand hcand] at hd
            exact (Option.some.injEq _ _ ▸ hd).symm
          rw [List.zip_cons_cons] at h
          simp only [Option.some.injEq] at h
          rw [pyMaxGo_all_zero (tl.zip ktl) g0 hrestz] at h
          subst h
          exact ih c g0 hg0

/-- Concrete store for claim C8: group nodes 0 (root), 1 (childA),
2 (childB), 3 (grandchild of root through childB) and 4 (X), with edges
0 to 1, 0 to 2 and 2 to 3; node 3 is the unique node of maximal depth
below the root, node 1 is the leaf reached by following first children. -/
def c8tree : St :=
  let s0 := (newNode emptySt "group" "root" [0, 0, 0] [0, 0, 0]).1
  let s1 := (newNode s0 "group" "childA" [0, 0, 0] [0, 0, 0]).1
  let s2 := (newNode s1 "group" "childB" [0, 0, 0] [0, 0, 0]).1
  let s3 := (newNode s2 "group" "grandchild" [0, 0, 0] [0, 0, 0]).1
  let s4 := (newNode s3 "group" "X" [0, 0, 0] [0, 0, 0]).1
  let t1 := (okState (addChildCore 9 s4 0 1)).getD emptySt
  let t2 := (okState (addChildCore 9 t1 0 2)).getD emptySt
  (okState (addChildCore 9 t2 2 3)).getD emptySt

/-- State after root.append_node(X) on the branched tree. -/
def c8after : St := (okState (append_node 9 c8tree 0 4)).getD emptySt

/-- C8 counterexample: on the tree root 0 with children 1 and 2 and
grandchild 3 under 2, the unique deepest descendant of the root is node 3
(depth 2, witnessed by the child edges and by Node._depth evaluating to 2
below node 0 through node 2), yet append_node attaches X to node 1, a leaf
at depth 1, because _find_grandest_grandchild returns the first leaf in
depth-first order, not the deepest node.  This refutes the claim that X
becomes a child of the node at maximum depth. -/
theorem C8_append_node_not_deepest :
    (c8tree.data 0).children_nodes = [1, 2] ∧
    (c8tree.data 2).children_nodes = [3] ∧
    (c8tree.data 1).children_nodes = [] ∧
    (c8tree.data 3).children_nodes = [] ∧
    depthAux c8tree 9 0 = some 1 ∧
    depthAux c8tree 9 2 = some 1 ∧
    okState (append_node 9 c8tree 0 4) = some c8after ∧
    (c8after.data 1).children_nodes = [4] ∧
    (c8after.data 3).children_nodes = [] := by
  exact ⟨by decide, by decide, by decide, by decide, by decide, by decide,
    rfl, by decide, by decide⟩

/-- C8 amended: append_node attaches the new node to the leaf obtained by
following first children repeatedly from self (the earliest-discovered leaf
in depth-first order); in a linear chain this leaf is the deepest node, so
there X becomes a child of the chain's tail. -/
theorem C8_append_node_attaches_to_first_child_leaf (fuel : Nat) (s : St)
    (self x g : Nat) (h : fggAux s fuel self = some g) :
    firstLeaf s fuel self = some g ∧
    append_node fuel s self x = addChildCore fuel s g x := by
  refine ⟨fgg_eq_firstLeaf s fuel self g h, ?_⟩
  rw [append_node, h]

/-- Concrete linear chain for the C8 witness: root 0, childA 1, childB 2
and a fresh node 3 to append. -/
def c8chain : St :=
  let s0 := (newNode emptySt "group" "root" [0, 0, 0] [0, 0, 0]).1
  let s1 := (newNode s0 "group" "childA" [0, 0, 0] [0, 0, 0]).1
  let s2 := (newNode s1 "group" "childB" [0, 0, 0] [0, 0, 0]).1
  let s3 := (newNode s2 "group" "X" [0, 0, 0] [0, 0, 0]).1
  let t1 := (okState (addChildCore 9 s3 0 1)).getD emptySt
  (okState (addChildCore 9 t1 1 2)).getD emptySt

/-- Witness for the amended C8 theorem on the linear chain 0 to 1 to 2:
the first-child leaf is the chain tail 2, and append_node delegates to
add_child on it. -/
theorem C8_append_node_witness :
    firstLeaf c8chain 9 0 = some 2 ∧
    append_node 9 c8chain 0 3 = addChildCore 9 c8chain 2 3 :=
  C8_append_node_attaches_to_first_child_leaf 9 c8chain 0 3 2 (by decide)

theorem string_append_left_cancel (a b c : String) (h : a ++ b = a ++ c) :
    b = c := by
  obtain ⟨la⟩ := a; obtain ⟨lb⟩ := b; obtain ⟨lc⟩ := c
  have h2 : la ++ lb = la ++ lc := by
    have := congrArg String.data h
    simpa [String.data] using this
  exact congrArg String.mk (List.append_cancel_left h2)

/-- Behaviour of os.path.basename on slash-separated paths: the component
after the last slash, computed structurally on the character list. -/
def basename (p : String) : String :=
  String.mk ((p.data.reverse.takeWhile (fun ch => ch ≠ '/')).reverse)

/-- Resource.generate_path (resources.py lines 55 to 78).  The filesystem
is modelled as a partial map from paths to content bytes (os.path.isfile
holds exactly when the map is defined).  The collaborator hashlib.md5 is
modelled as an arbitrary fixed function md5hex of the content bytes; the
4096-byte chunked reads of the source feed the entire file content through
the hash, so the digest is a function of the full content.  On a missing
file the function raises FileNotFoundError; otherwise it returns
resources/<digest>/<basename>. -/
def generate_path (md5hex : List Nat → String)
    (fs : String → Option (List Nat)) (file_path : String) :
    Except String String :=
  match fs file_path with
  | none => Except.error ("File not found: " ++ file_path)
  | some content =>
      Except.ok ("resources/" ++ md5hex content ++ "/" ++ basename file_path)

/-- C9: generate_path is a deterministic function of the content bytes and
the base filename.  A missing file raises the not-found error; an existing
file yields resources/<hash>/<basename>; two paths with byte-identical
content share the hash directory, give equal results when their basenames
agree (determinism) and distinct full paths when their basenames differ. -/
theorem C9_generate_path_content_addressing (md5hex : List Nat → String)
    (fs : String → Option (List Nat)) (p1 p2 : String) (b : List Nat) :
    (fs p1 = none →
      generate_path md5hex fs p1 = Except.error ("File not found: " ++ p1)) ∧
    (fs p1 = some b →
      generate_path md5hex fs p1 =
        Except.ok ("resources/" ++ md5hex b ++ "/" ++ basename p1)) ∧
    (fs p1 = some b → fs p2 = some b → basename p1 = basename p2 →
      generate_path md5hex fs p1 = generate_path md5hex fs p2) ∧
    (fs p1 = some b → fs p2 = some b → basename p1 ≠ basename p2 →
      generate_path md5hex fs p1 ≠ generate_path md5hex fs p2) := by
  refine ⟨?_, ?_, ?_, ?_⟩
  · intro h; rw [generate_path, h]
  · intro h; rw [generate_path, h]
  · intro h1 h2 hb
    rw [generate_path, h1, generate_path, h2, hb]
  · intro h1 h2 hb hcontra
    rw [generate_path, h1, generate_path, h2] at hcontra
    simp only [Except.ok.injEq] at hcontra
    exact hb (string_append_left_cancel ("resources/" ++ md5hex b ++ "/") _ _
      (by simpa [String.append_assoc] using hcontra))

/-- Concrete filesystem for the C9 witness: two distinct paths with
byte-identical content and one absent path. -/
def c9fs : String → Option (List Nat) := fun p =>
  if p = "meshes/a.stl" then some [1, 2, 3]
  else if p = "b.stl" then some [1, 2, 3]
  else none

/-- Stand-in digest function for the C9 witness. -/
def c9md5 : List Nat → String := fun content =>
  if content = [1, 2, 3] then "d1" else "d0"

/-- Witness for C9 at a concrete filesystem: the missing-file error, the
derived path shape, and the distinct-full-paths consequence for
byte-identical files with different basenames. -/
theorem C9_generate_path_witness :
    generate_path c9md5 c9fs "missing.stl" =
      Except.error ("File not found: " ++ "missing.stl") ∧
    generate_path c9md5 c9fs "meshes/a.stl" =
      Except.ok ("resources/" ++ c9md5 [1, 2, 3] ++ "/" ++ basename "meshes/a.stl") ∧
    generate_path c9md5 c9fs "meshes/a.stl" ≠ generate_path c9md5 c9fs "b.stl" := by
  refine ⟨?_, ?_, ?_⟩
  · exact (C9_generate_path_content_addressing c9md5 c9fs "missing.stl" "b.stl"
      [1, 2, 3]).1 (by decide)
  · exact (C9_generate_path_content_addressing c9md5 c9fs "meshes/a.stl" "b.stl"
      [1, 2, 3]).2.1 (by decide)
  · exact (C9_generate_path_content_addressing c9md5 c9fs "meshes/a.stl" "b.stl"
      [1, 2, 3]).2.2.2 (by decide) (by decide) (by decide)

/-- Python exception kinds raised by the embedded fragments. -/
inductive PyErr
  | attributeError (attr : String)
  | typeError (msg : String)
  | valueError (msg : String)
deriving DecidableEq

/-- Attribute record created by Resource.__init__ (resources.py lines 34 to
53): id, _type, name, path (the derived content-addressed path returned by
generate_path) and fetch_from (the original source path).  The constructor
also assigns the dict-valued unique_attributes, which Project.nano never
reads; the string-valued attribute view below covers every access the
embedded code performs. -/
structure PyResource where
  rid : String
  rtype : String
  rname : String
  path : String
  fetch_from : String
deriving DecidableEq

/-- getattr on a Resource instance restricted to string-valued attributes.
Neither Resource.__init__ nor the Image and Mesh subclasses define
file_path or safe_path, so those lookups yield none, the model of
AttributeError. -/
def resourceGetattr (r : PyResource) (attr : String) : Option String :=
  if attr = "id" then some r.rid
  else if attr = "_type" then some r.rtype
  else if attr = "name" then some r.rname
  else if attr = "path" then some r.path
  else if attr = "fetch_from" then some r.fetch_from
  else none

/-- Resource loop of Project.nano (project.py lines 225 to 231): for every
registered resource read resource.file_path and resource.safe_path, then
either add the source bytes to the archive under the arcname or print a
non-fatal skip message when the source file is missing. -/
def nanoAddResources (fs : String → Option (List Nat)) :
    List PyResource → List (String × List Nat) →
    Except PyErr (List (String × List Nat))
  | [], acc => Except.ok acc
  | r :: rest, acc =>
      match resourceGetattr r "file_path" with
      | none => Except.error (PyErr.attributeError "file_path")
      | some src =>
          match resourceGetattr r "safe_path" with
          | none => Except.error (PyErr.attributeError "safe_path")
          | some arc =>
              match fs src with
              | some bytes => nanoAddResources fs rest (acc ++ [(arc, bytes)])
              | none => nanoAddResources fs rest acc

/-- Project.nano (project.py lines 198 to 233): write __main__.toml and
project_info.json into the archive, then run the resource loop.  tomlData
and infoData abstract the serialized manifest and metadata produced by the
collaborator toml/json writers before the archive is opened.  The result
is the archive entry list, or the Python exception that escapes the call. -/
def nano (fs : String → Option (List Nat)) (resources : List PyResource)
    (tomlData infoData : List Nat) : Except PyErr (List (String × List Nat)) :=
  nanoAddResources fs resources
    [("__main__.toml", tomlData), ("project_info.json", infoData)]

/-- C5: claimed, every registered resource with an existing source file has
its bytes written under its derived path and missing files are skipped
non-fatally.  The loop reads resource.file_path and resource.safe_path, but
Resource instances only carry path and fetch_from, so the first registered
resource raises AttributeError and the export aborts; with no registered
resources the archive holds exactly the manifest and the metadata. -/
theorem C5_nano_resource_attribute_error (fs : String → Option (List Nat))
    (r : PyResource) (rest : List PyResource) (tomlData infoData : List Nat) :
    nano fs (r :: rest) tomlData infoData =
      Except.error (PyErr.attributeError "file_path") ∧
    nano fs [] tomlData infoData =
      Except.ok [("__main__.toml", tomlData), ("project_info.json", infoData)] :=
  ⟨rfl, rfl⟩

/-- Concrete store for claim C7: one group node 0 whose position container
holds the zero vector. -/
def c7orig : St := (newNode emptySt "group" "N" [0, 0, 0] [0, 0, 0]).1

/-- Node.deepcopy_node with copy_children set to False (node.py lines 239
to 245): copy.copy produces a new object whose attribute values are the
originals, so the position, rotation, properties and geometry container
references stay SHARED with the original; then id is regenerated and
children_nodes, all_descendants and all_ancestors are rebound to fresh
empty lists.  parents_nodes is not rebound and keeps the copied value. -/
def deepcopy_node_shallow (s : St) (n : Nat) : St × Nat :=
  let o := s.nextObj
  let nd := s.data n
  let ndCopy : NodeData :=
    { nd with
      pyid := s.nextUuid, children_nodes := [],
      all_descendants := [], all_ancestors := [] }
  ({ s with
     alloc := s.alloc ++ [o], nextObj := o + 1,
     nextUuid := s.nextUuid + 1,
     data := Function.update s.data o ndCopy }, o)

/-- In-place mutation of the list container at one heap reference, e.g. the
Python statement node.position[0] = 7 rebinding the shared list contents. -/
def writeListHeap (s : St) (r : Nat) (v : List Int) : St :=
  { s with listHeap := fun x => if x = r then v else s.listHeap x }

/-- Reading node.position. -/
def readPosition (s : St) (n : Nat) : List Int := s.listHeap (s.data n).posRef

/-- Store after M = N.deepcopy_node(copy_children=False) for node 0. -/
def c7cloned : St := (deepcopy_node_shallow c7orig 0).1

/-- Store after the in-place mutation M.position[0] = 7. -/
def c7mut : St := writeListHeap c7cloned ((c7cloned.data 1).posRef) [7, 0, 0]

/-- C7: claimed, the shallow clone shares no mutable state with the
original.  The clone does have zero children, empty caches and a fresh
identity, but copy.copy leaves the position container shared: after the
in-place write through the clone, the original node reads the mutated
vector, refuting the no-shared-mutable-state part of the claim. -/
theorem C7_shallow_copy_shares_position_container :
    (c7cloned.data 1).children_nodes = [] ∧
    (c7cloned.data 1).all_descendants = [] ∧
    (c7cloned.data 1).all_ancestors = [] ∧
    (c7cloned.data 1).pyid ≠ (c7cloned.data 0).pyid ∧
    (c7cloned.data 1).posRef = (c7cloned.data 0).posRef ∧
    readPosition c7cloned 0 = [0, 0, 0] ∧
    readPosition c7mut 1 = [7, 0, 0] ∧
    readPosition c7mut 0 = [7, 0, 0] := by
  exact ⟨by decide, by decide, by decide, by decide, by decide, by decide,
    by decide, by decide⟩

/-- Keyword parameter names accepted by Node.__init__ (node.py lines 38 to
44): there is no kwargs catch-all, so any other keyword raises TypeError at
the call, before the constructor body runs. -/
def nodeInitKeywords : List String := ["node_type", "name", "position", "rotation"]

/-- Binding of a super().__init__ call that passes the given keyword
argument names to Node.__init__: an unexpected keyword raises TypeError. -/
def bindSuperNodeInit (kw : List String) : Except PyErr Unit :=
  if kw.all (fun k => nodeInitKeywords.contains k) then Except.ok ()
  else Except.error (PyErr.typeError "unexpected keyword argument")

/-- Scene.__init__ (space.py lines 25 to 35): no validation of its own; it
forwards position, rotation and writing_direction_upward as keywords to
Node.__init__ (node type and name are positional). -/
def scene_init (name : String) (position rotation : List Int)
    (writing_direction_upward : Bool) : Except PyErr Unit :=
  bindSuperNodeInit ["position", "rotation", "writing_direction_upward"]

/-- Array.__init__ (space.py lines 219 to 250): validate count, order and
shape (the spacing isinstance check always passes for integer-typed
spacing), then forward name, position, rotation, order, shape, count and
spacing as keywords to Node.__init__. -/
def array_init (name : String) (position rotation : List Int)
    (count spacing : List Int) (order shape : String) : Except PyErr Unit :=
  if ¬ count.all (fun c => 0 < c) then
    Except.error (PyErr.valueError
      "All count elements must be integers greater than zero.")
  else if ¬ (order = "Lexical" ∨ order = "Meander") then
    Except.error (PyErr.valueError "order must be either Lexical or Meander.")
  else if ¬ (shape = "Rectangular" ∨ shape = "Round") then
    Except.error (PyErr.valueError "shape must be either Rectangular or Round.")
  else
    bindSuperNodeInit
      ["name", "position", "rotation", "order", "shape", "count", "spacing"]

/-- CoarseAligner.__init__ (aligners.py lines 25 to 42): the isinstance
check on name always passes for string-typed name; validate
residual_threshold, then forward residual_threshold as a keyword to
Node.__init__. -/
def coarse_aligner_init (name : String) (residual_threshold : Int) :
    Except PyErr Unit :=
  if residual_threshold ≤ 0 then
    Except.error (PyErr.valueError "residual_threshold must be a positive number.")
  else
    bindSuperNodeInit ["residual_threshold"]

/-- C10 counterexample: the claim says every argument combination for
Scene, Array and CoarseAligner raises a TypeError; but an Array whose count
fails the constructor's own pre-validation raises ValueError before the
forwarding super().__init__ call is reached. -/
theorem C10_array_invalid_count_raises_value_error :
    array_init "Array" [0, 0, 0] [0, 0, 0] [0, 5] [100, 100]
      "Lexical" "Rectangular" =
      Except.error (PyErr.valueError
        "All count elements must be integers greater than zero.") ∧
    ∀ msg, array_init "Array" [0, 0, 0] [0, 0, 0] [0, 5] [100, 100]
      "Lexical" "Rectangular" ≠ Except.error (PyErr.typeError msg) := by
  constructor
  · rfl
  · intro msg h
    rw [show array_init "Array" [0, 0, 0] [0, 0, 0] [0, 5] [100, 100]
        "Lexical" "Rectangular" =
        Except.error (PyErr.valueError
          "All count elements must be integers greater than zero.") from rfl] at h
    simp at h

/-- C10 amended: every Scene construction raises TypeError (its constructor
has no validation of its own), and every Array or CoarseAligner
construction that passes the constructor's own pre-validation raises
TypeError at the forwarding super().__init__ call, because Node.__init__
accepts only node_type, name, position and rotation; argument combinations
failing the pre-validation raise that validation's ValueError instead.  In
all cases construction fails, so none of these three node kinds can be
instantiated. -/
theorem C10_extra_keywords_raise_type_error :
    (∀ (name : String) (position rotation : List Int) (wdu : Bool),
      scene_init name position rotation wdu =
        Except.error (PyErr.typeError "unexpected keyword argument")) ∧
    (∀ (name : String) (position rotation count spacing : List Int)
      (order shape : String),
      count.all (fun c => 0 < c) →
      (order = "Lexical" ∨ order = "Meander") →
      (shape = "Rectangular" ∨ shape = "Round") →
      array_init name position rotation count spacing order shape =
        Except.error (PyErr.typeError "unexpected keyword argument")) ∧
    (∀ (name : String) (residual_threshold : Int),
      0 < residual_threshold →
      coarse_aligner_init name residual_threshold =
        Except.error (PyErr.typeError "unexpected keyword argument")) := by
  refine ⟨fun _ _ _ _ => rfl, ?_, ?_⟩
  · intro name position rotation count spacing order shape hc ho hs
    rw [array_init, if_neg (not_not_intro hc), if_neg (not_not_intro ho),
      if_neg (not_not_intro hs)]
    rfl
  · intro name residual_threshold h
    rw [coarse_aligner_init, if_neg (by omega)]
    rfl

/-- Witness for the amended C10 theorem at concrete arguments. -/
theorem C10_extra_keywords_witness :
    scene_init "Scene" [0, 0, 0] [0, 0, 0] true =
      Except.error (PyErr.typeError "unexpected keyword argument") ∧
    array_init "Array" [0, 0, 0] [0, 0, 0] [5, 5] [100, 100]
      "Lexical" "Rectangular" =
      Except.error (PyErr.typeError "unexpected keyword argument") ∧
    coarse_aligner_init "Coarse aligner" 10 =
      Except.error (PyErr.typeError "unexpected keyword argument") :=
  ⟨C10_extra_keywords_raise_type_error.1 "Scene" [0, 0, 0] [0, 0, 0] true,
   C10_extra_keywords_raise_type_error.2.1 "Array" [0, 0, 0] [0, 0, 0]
     [5, 5] [100, 100] "Lexical" "Rectangular" (by decide) (Or.inl rfl)
     (Or.inl rfl),
   C10_extra_keywords_raise_type_error.2.2 "Coarse aligner" 10 (by decide)⟩

theorem data_setData_same (s : St) (o : Nat) (nd : NodeData) :
    (setData s o nd).data o = nd := by
  simp [setData]

theorem data_setData_other (s : St) (o o' : Nat) (nd : NodeData)
    (h : o' ≠ o) : (setData s o nd).data o' = s.data o' := by
  simp [setData, Function.update_noteq h]

theorem reaches_target_mem (adj : Nat → List Nat) {a b : Nat}
    (h : Reaches adj a b) : ∃ z, b ∈ adj z := by
  induction h with
  | @step a b h => exact ⟨a, h⟩
  | trans _ _ ih => exact ih

/-- Well-formedness invariant of a store reachable through the public Node
API: the parents lists mirror the children lists, the all_descendants and
all_ancestors caches are exact for child- respectively parent-reachability,
allocation is bounded by the counters, unallocated addresses are empty,
every stored reference points at an allocated node, uuids are below the
uuid counter, and no node has a parent attribute. -/
structure Inv (s : St) : Prop where
  mirror : ∀ a b, a ∈ (s.data b).children_nodes ↔ b ∈ (s.data a).parents_nodes
  descExact : ∀ n x, x ∈ (s.data n).all_descendants ↔ Reaches (childAdj s) n x
  ancExact : ∀ n x, x ∈ (s.data n).all_ancestors ↔ Reaches (parentAdj s) n x
  allocBound : ∀ o ∈ s.alloc, o < s.nextObj
  unallocDefault : ∀ o, o ∉ s.alloc → s.data o = defaultNodeData
  childrenAlloc : ∀ o, ∀ x ∈ (s.data o).children_nodes, x ∈ s.alloc
  parentsAlloc : ∀ o, ∀ x ∈ (s.data o).parents_nodes, x ∈ s.alloc
  descAlloc : ∀ o, ∀ x ∈ (s.data o).all_descendants, x ∈ s.alloc
  ancAlloc : ∀ o, ∀ x ∈ (s.data o).all_ancestors, x ∈ s.alloc
  uuidBound : ∀ o ∈ s.alloc, (s.data o).pyid < s.nextUuid
  parentNone : ∀ o, (s.data o).parent = none

/-- States differing at most in some all_ancestors caches. -/
structure AncOnly (s s' : St) : Prop where
  alloc_eq : s'.alloc = s.alloc
  nextObj_eq : s'.nextObj = s.nextObj
  nextUuid_eq : s'.nextUuid = s.nextUuid
  nextRef_eq : s'.nextRef = s.nextRef
  heap_eq : s'.listHeap = s.listHeap
  data_eq : ∀ o, s'.data o =
    { s.data o with all_ancestors := (s'.data o).all_ancestors }

/-- States differing at most in some all_descendants caches. -/
structure DescOnly (s s' : St) : Prop where
  alloc_eq : s'.alloc = s.alloc
  nextObj_eq : s'.nextObj = s.nextObj
  nextUuid_eq : s'.nextUuid = s.nextUuid
  nextRef_eq : s'.nextRef = s.nextRef
  heap_eq : s'.listHeap = s.listHeap
  data_eq : ∀ o, s'.data o =
    { s.data o with all_descendants := (s'.data o).all_descendants }

theorem AncOnly.refl (s : St) : AncOnly s s :=
  ⟨rfl, rfl, rfl, rfl, rfl, fun _ => rfl⟩

theorem AncOnly.trans {s1 s2 s3 : St} (h1 : AncOnly s1 s2)
    (h2 : AncOnly s2 s3) : AncOnly s1 s3 := by
  refine ⟨h2.alloc_eq.trans h1.alloc_eq, h2.nextObj_eq.trans h1.nextObj_eq,
    h2.nextUuid_eq.trans h1.nextUuid_eq, h2.nextRef_eq.trans h1.nextRef_eq,
    h2.heap_eq.trans h1.heap_eq, ?_⟩
  intro o
  rw [h2.data_eq o, h1.data_eq o]

theorem DescOnly.drefl (s : St) : DescOnly s s :=
  ⟨rfl, rfl, rfl, rfl, rfl, fun _ => rfl⟩

theorem DescOnly.dtrans {s1 s2 s3 : St} (h1 : DescOnly s1 s2)
    (h2 : DescOnly s2 s3) : DescOnly s1 s3 := by
  refine ⟨h2.alloc_eq.trans h1.alloc_eq, h2.nextObj_eq.trans h1.nextObj_eq,
    h2.nextUuid_eq.trans h1.nextUuid_eq, h2.nextRef_eq.trans h1.nextRef_eq,
    h2.heap_eq.trans h1.heap_eq, ?_⟩
  intro o
  rw [h2.data_eq o, h1.data_eq o]

theorem AncOnly.children_eq {s s' : St} (h : AncOnly s s') (o : Nat) :
    (s'.data o).children_nodes = (s.data o).children_nodes := by
  rw [h.data_eq o]

theorem AncOnly.parents_eq {s s' : St} (h : AncOnly s s') (o : Nat) :
    (s'.data o).parents_nodes = (s.data o).parents_nodes := by
  rw [h.data_eq o]

theorem AncOnly.desc_eq {s s' : St} (h : AncOnly s s') (o : Nat) :
    (s'.data o).all_descendants = (s.data o).all_descendants := by
  rw [h.data_eq o]

theorem AncOnly.pyid_eq {s s' : St} (h : AncOnly s s') (o : Nat) :
    (s'.data o).pyid = (s.data o).pyid := by
  rw [h.data_eq o]

theorem AncOnly.parent_eq {s s' : St} (h : AncOnly s s') (o : Nat) :
    (s'.data o).parent = (s.data o).parent := by
  rw [h.data_eq o]

theorem AncOnly.childAdj_eq {s s' : St} (h : AncOnly s s') :
    childAdj s' = childAdj s := by
  funext o
  exact h.children_eq o

theorem AncOnly.parentAdj_eq {s s' : St} (h : AncOnly s s') :
    parentAdj s' = parentAdj s := by
  funext o
  exact h.parents_eq o

theorem DescOnly.dchildren_eq {s s' : St} (h : DescOnly s s') (o : Nat) :
    (s'.data o).children_nodes = (s.data o).children_nodes := by
  rw [h.data_eq o]

theorem DescOnly.dparents_eq {s s' : St} (h : DescOnly s s') (o : Nat) :
    (s'.data o).parents_nodes = (s.data o).parents_nodes := by
  rw [h.data_eq o]

theorem DescOnly.anc_eq {s s' : St} (h : DescOnly s s') (o : Nat) :
    (s'.data o).all_ancestors = (s.data o).all_ancestors := by
  rw [h.data_eq o]

theorem DescOnly.dpyid_eq {s s' : St} (h : DescOnly s s') (o : Nat) :
    (s'.data o).pyid = (s.data o).pyid := by
  rw [h.data_eq o]

theorem DescOnly.dparent_eq {s s' : St} (h : DescOnly s s') (o : Nat) :
    (s'.data o).parent = (s.data o).parent := by
  rw [h.data_eq o]

theorem DescOnly.dchildAdj_eq {s s' : St} (h : DescOnly s s') :
    childAdj s' = childAdj s := by
  funext o
  exact h.dchildren_eq o

theorem DescOnly.dparentAdj_eq {s s' : St} (h : DescOnly s s') :
    parentAdj s' = parentAdj s := by
  funext o
  exact h.dparents_eq o

/-- Specification of the ancestor-cache regeneration loop: it changes only
all_ancestors caches, touches only worklist members, makes each worklist
member's cache exact for parent-reachability, and its termination certifies
that no worklist member lies on a parent cycle. -/
theorem regenAncestorsList_spec (fuel : Nat) : ∀ (L : List Nat) (s s' : St),
    regenAncestorsList fuel s L = some s' →
    AncOnly s s' ∧
    (∀ o, o ∉ L → s'.data o = s.data o) ∧
    (∀ d ∈ L, ∀ x, x ∈ (s'.data d).all_ancestors ↔ Reaches (parentAdj s) d x) ∧
    (∀ d ∈ L, ¬ Reaches (parentAdj s) d d) := by
  intro L
  induction L with
  | nil =>
    intro s s' h
    simp only [regenAncestorsList, Option.some.injEq] at h
    subst h
    exact ⟨AncOnly.refl s, fun o _ => rfl, by simp, by simp⟩
  | cons d rest ih =>
    intro s s' h
    rw [regenAncestorsList] at h
    cases hgen : generate_all_ancestors fuel s d with
    | none => rw [hgen] at h; simp at h
    | some l =>
      rw [hgen] at h
      set s1 := setData s d { s.data d with all_ancestors := l } with hs1
      have hstep : AncOnly s s1 := by
        refine ⟨rfl, rfl, rfl, rfl, rfl, ?_⟩
        intro o
        by_cases ho : o = d
        · subst ho
          rw [data_setData_same]
        · rw [data_setData_other _ _ _ _ ho]
      have hpadj : parentAdj s1 = parentAdj s := hstep.parentAdj_eq
      obtain ⟨hAnc, hOut, hEx, hCy⟩ := ih s1 s' h
      refine ⟨hstep.trans hAnc, ?_, ?_, ?_⟩
      · intro o ho
        have ho1 : o ≠ d := fun hh => ho (hh ▸ List.mem_cons_self _ _)
        have ho2 : o ∉ rest := fun hh => ho (List.mem_cons_of_mem _ hh)
        rw [hOut o ho2, hs1, data_setData_other _ _ _ _ ho1]
      · intro d' hd' x
        rcases List.mem_cons.mp hd' with rfl | hd'
        · by_cases hdr : d' ∈ rest
          · rw [hEx d' hdr x, hpadj]
          · rw [hOut d' hdr, hs1, data_setData_same]
            have := traverseAux_spec (parentAdj s) fuel [] [d'] l hgen x
            simp only [List.not_mem_nil, false_or, List.mem_singleton] at this
            rw [this]
            constructor
            · rintro ⟨sn, rfl, hr⟩; exact hr
            · intro hr; exact ⟨d', rfl, hr⟩
        · rw [hEx d' hd' x, hpadj]
      · intro d' hd'
        rcases List.mem_cons.mp hd' with rfl | hd'
        · exact traverseAux_no_cycle (parentAdj s) fuel [] [d'] l hgen d'
            (List.mem_singleton.mpr rfl)
        · rw [← hpadj]; exact hCy d' hd'

/-- Specification of the ancestor-descendants extension loop: when the new
child is not itself among the ancestors being updated, the loop changes
only all_descendants caches, touches only listed nodes, and extends each
listed node's cache by the child and the child's descendants (as sets). -/
theorem extendAncDescList_spec (c : Nat) : ∀ (A : List Nat) (s : St),
    c ∉ A →
    DescOnly s (extendAncDescList c s A) ∧
    (∀ o, o ∉ A → (extendAncDescList c s A).data o = s.data o) ∧
    (∀ o ∈ A, ∀ x, x ∈ ((extendAncDescList c s A).data o).all_descendants ↔
      x ∈ (s.data o).all_descendants ∨ x = c ∨
        x ∈ (s.data c).all_descendants) := by
  intro A
  induction A with
  | nil =>
    intro s _
    exact ⟨DescOnly.drefl s, fun o _ => rfl, by simp⟩
  | cons a rest ih =>
    intro s hc
    have hca : c ≠ a := fun hh => hc (hh ▸ List.mem_cons_self _ _)
    have hcr : c ∉ rest := fun hh => hc (List.mem_cons_of_mem _ hh)
    set s1 := setData s a
      { s.data a with
        all_descendants :=
          (s.data a).all_descendants ++ [c] ++ (s.data c).all_descendants }
      with hs1
    have hrun : extendAncDescList c s (a :: rest) = extendAncDescList c s1 rest := by
      rw [extendAncDescList]
    have hstep : DescOnly s s1 := by
      refine ⟨rfl, rfl, rfl, rfl, rfl, ?_⟩
      intro o
      by_cases ho : o = a
      · subst ho
        rw [hs1, data_setData_same]
      · rw [hs1, data_setData_other _ _ _ _ ho]
    have hs1c : s1.data c = s.data c := by
      rw [hs1, data_setData_other _ _ _ _ hca]
    have hs1a : s1.data a =
        { s.data a with
          all_descendants :=
            (s.data a).all_descendants ++ [c] ++ (s.data c).all_descendants } := by
      rw [hs1, data_setData_same]
    obtain ⟨hDesc, hOut, hEx⟩ := ih s1 hcr
    rw [hrun]
    refine ⟨hstep.dtrans hDesc, ?_, ?_⟩
    · intro o ho
      have ho1 : o ≠ a := fun hh => ho (hh ▸ List.mem_cons_self _ _)
      have ho2 : o ∉ rest := fun hh => ho (List.mem_cons_of_mem _ hh)
      rw [hOut o ho2, hs1, data_setData_other _ _ _ _ ho1]
    · intro o hoA x
      rcases List.mem_cons.mp hoA with rfl | hoR
      · by_cases hor : o ∈ rest
        · rw [hEx o hor x, hs1c, hs1a]
          simp only [List.mem_append, List.mem_singleton]
          tauto
        · rw [hOut o hor, hs1a]
          simp only [List.mem_append, List.mem_singleton]
          tauto
      · rw [hEx o hoR x, hs1c]
        by_cases hoa : o = a
        · subst hoa
          rw [hs1a]
          simp only [List.mem_append, List.mem_singleton]
          tauto
        · rw [hs1, data_setData_other _ _ _ _ hoa]

theorem addChildPre_alloc (s : St) (self c : Nat) :
    (addChildPre s self c).alloc = s.alloc := rfl

theorem addChildPre_nextObj (s : St) (self c : Nat) :
    (addChildPre s self c).nextObj = s.nextObj := rfl

theorem addChildPre_nextUuid (s : St) (self c : Nat) :
    (addChildPre s self c).nextUuid = s.nextUuid := rfl

theorem addChildPre_nextRef (s : St) (self c : Nat) :
    (addChildPre s self c).nextRef = s.nextRef := rfl

theorem addChildPre_heap (s : St) (self c : Nat) :
    (addChildPre s self c).listHeap = s.listHeap := rfl

theorem addChildPre_data_other (s : St) (self c o : Nat) (h1 : o ≠ c)
    (h2 : o ≠ self) : (addChildPre s self c).data o = s.data o := by
  simp [addChildPre, data_setData_same, data_setData_other, h1, h2]

theorem addChildPre_data_c (s : St) (self c : Nat) (hne : c ≠ self) :
    (addChildPre s self c).data c =
      { s.data c with parents_nodes := (s.data c).parents_nodes ++ [self] } := by
  simp [addChildPre, data_setData_same, data_setData_other, hne]

theorem addChildPre_data_self (s : St) (self c : Nat) (hne : c ≠ self) :
    (addChildPre s self c).data self =
      { s.data self with
        children_nodes := (s.data self).children_nodes ++ [c],
        all_descendants :=
          (s.data self).all_descendants ++ [c] ++
            (s.data c).all_descendants } := by
  simp [addChildPre, data_setData_same, data_setData_other, hne, Ne.symm hne]

/-- The parents of the candidate gain self, whether or not it equals self. -/
theorem addChildPre_parents_c (s : St) (self c : Nat) :
    ((addChildPre s self c).data c).parents_nodes =
      (s.data c).parents_nodes ++ [self] := by
  by_cases hne : c = self
  · subst hne
    simp [addChildPre, data_setData_same]
  · rw [addChildPre_data_c s self c hne]

theorem addChildPre_childAdj (s : St) (self c : Nat) (hne : c ≠ self) :
    ∀ x, childAdj (addChildPre s self c) x =
      if x = self then childAdj s x ++ [c] else childAdj s x := by
  intro x
  show ((addChildPre s self c).data x).children_nodes = _
  by_cases hx : x = self
  · subst hx
    rw [if_pos rfl, addChildPre_data_self s x c hne]
    rfl
  · rw [if_neg hx]
    by_cases hxc : x = c
    · subst hxc
      rw [addChildPre_data_c s self x hne]
      rfl
    · rw [addChildPre_data_other s self c x hxc hx]
      rfl

theorem addChildPre_parentAdj (s : St) (self c : Nat) (hne : c ≠ self) :
    ∀ x, parentAdj (addChildPre s self c) x =
      if x = c then parentAdj s x ++ [self] else parentAdj s x := by
  intro x
  show ((addChildPre s self c).data x).parents_nodes = _
  by_cases hx : x = c
  · subst hx
    rw [if_pos rfl, addChildPre_data_c s self x hne]
    rfl
  · rw [if_neg hx]
    by_cases hxs : x = self
    · subst hxs
      rw [addChildPre_data_self s x c hne]
      rfl
    · rw [addChildPre_data_other s self c x hx hxs]
      rfl

theorem addChildPre_anc (s : St) (self c : Nat) (hne : c ≠ self) :
    ∀ o, ((addChildPre s self c).data o).all_ancestors =
      (s.data o).all_ancestors := by
  intro o
  by_cases hoc : o = c
  · subst hoc
    rw [addChildPre_data_c s self o hne]
  · by_cases hos : o = self
    · subst hos
      rw [addChildPre_data_self s o c hne]
    · rw [addChildPre_data_other s self c o hoc hos]

theorem addChildPre_pyid (s : St) (self c : Nat) (hne : c ≠ self) :
    ∀ o, ((addChildPre s self c).data o).pyid = (s.data o).pyid := by
  intro o
  by_cases hoc : o = c
  · subst hoc
    rw [addChildPre_data_c s self o hne]
  · by_cases hos : o = self
    · subst hos
      rw [addChildPre_data_self s o c hne]
    · rw [addChildPre_data_other s self c o hoc hos]

theorem addChildPre_parent (s : St) (self c : Nat) (hne : c ≠ self) :
    ∀ o, ((addChildPre s self c).data o).parent = (s.data o).parent := by
  intro o
  by_cases hoc : o = c
  · subst hoc
    rw [addChildPre_data_c s self o hne]
  · by_cases hos : o = self
    · subst hos
      rw [addChildPre_data_self s o c hne]
    · rw [addChildPre_data_other s self c o hoc hos]

theorem addChildPre_desc (s : St) (self c : Nat) (hne : c ≠ self) :
    ∀ o, ((addChildPre s self c).data o).all_descendants =
      if o = self then
        (s.data o).all_descendants ++ [c] ++ (s.data c).all_descendants
      else (s.data o).all_descendants := by
  intro o
  by_cases hos : o = self
  · subst hos
    rw [if_pos rfl, addChildPre_data_self s o c hne]
  · rw [if_neg hos]
    by_cases hoc : o = c
    · subst hoc
      rw [addChildPre_data_c s self o hne]
    · rw [addChildPre_data_other s self c o hoc hos]

/-- Preservation of the store invariant by a successful add_child mutation.
Termination of the ancestor-cache regeneration certifies that the new edge
closes no cycle, from which the exactness of all updated caches follows. -/
theorem inv_addChildMutate (fuel self c : Nat) (s s' : St) (hI : Inv s)
    (hself : self ∈ s.alloc) (hc : c ∈ s.alloc)
    (h : addChildMutate fuel s self c = some (Except.ok s')) : Inv s' := by
  simp only [addChildMutate] at h
  cases hreg : regenAncestorsList fuel (addChildPre s self c)
      ([c] ++ ((addChildPre s self c).data c).all_descendants) with
  | none => rw [hreg] at h; simp at h
  | some s4 =>
    rw [hreg] at h
    dsimp only at h
    simp only [Option.some.injEq, Except.ok.injEq] at h
    subst h
    obtain ⟨hAnc4, hOut4, hEx4, hCy4⟩ := regenAncestorsList_spec fuel
      ([c] ++ ((addChildPre s self c).data c).all_descendants)
      (addChildPre s self c) s4 hreg
    have hcL : c ∈ [c] ++ ((addChildPre s self c).data c).all_descendants :=
      List.mem_append_left _ (List.mem_singleton.mpr rfl)
    have hCnoCy : ¬ Reaches (parentAdj (addChildPre s self c)) c c := hCy4 c hcL
    have hselfparc : self ∈ parentAdj (addChildPre s self c) c := by
      show self ∈ ((addChildPre s self c).data c).parents_nodes
      rw [addChildPre_parents_c]
      exact List.mem_append_right _ (List.mem_singleton.mpr rfl)
    have hne : c ≠ self := by
      rintro rfl
      exact hCnoCy (Reaches.step hselfparc)
    have hchild3 := addChildPre_childAdj s self c hne
    have hpar3 := addChildPre_parentAdj s self c hne
    have hdesc3 := addChildPre_desc s self c hne
    have hanc3 := addChildPre_anc s self c hne
    have hpy3 := addChildPre_pyid s self c hne
    have hparent3 := addChildPre_parent s self c hne
    have hparsub : ∀ x y, y ∈ parentAdj s x →
        y ∈ parentAdj (addChildPre s self c) x := by
      intro x y hy
      rw [hpar3 x]
      by_cases hx : x = c
      · rw [if_pos hx]; exact List.mem_append_left _ hy
      · rw [if_neg hx]; exact hy
    have hncP : ¬ Reaches (parentAdj s) self c := by
      intro hR
      exact hCnoCy (Reaches.trans hselfparc
        (reaches_mono _ _ hparsub hR))
    have hnc : ¬ Reaches (childAdj s) c self := fun hR =>
      hncP (reaches_flip (childAdj s) (parentAdj s) hI.mirror hR)
    have hedgeC := reaches_add_edge (childAdj s)
      (childAdj (addChildPre s self c)) self c hchild3 hnc hne
    have hedgeP := reaches_add_edge (parentAdj s)
      (parentAdj (addChildPre s self c)) c self hpar3 hncP (Ne.symm hne)
    have hdescc3 : ((addChildPre s self c).data c).all_descendants =
        (s.data c).all_descendants := by
      rw [hdesc3 c, if_neg hne]
    have hLiff : ∀ d, d ∈ [c] ++ ((addChildPre s self c).data c).all_descendants ↔
        d = c ∨ Reaches (childAdj s) c d := by
      intro d
      rw [List.mem_append, List.mem_singleton, hdescc3, hI.descExact c d]
    have hselfL : self ∉ [c] ++ ((addChildPre s self c).data c).all_descendants := by
      rw [hLiff self]
      rintro (rfl | hR)
      · exact hne rfl
      · exact hnc hR
    have hs4self : s4.data self = (addChildPre s self c).data self :=
      hOut4 self hselfL
    have hA : (s4.data self).all_ancestors = (s.data self).all_ancestors := by
      rw [hs4self, hanc3 self]
    have hAm : ∀ x, x ∈ (s4.data self).all_ancestors ↔
        Reaches (parentAdj s) self x := by
      intro x
      rw [hA]
      exact hI.ancExact self x
    have hAiffR : ∀ m, m ∈ (s4.data self).all_ancestors ↔
        Reaches (childAdj s) m self := by
      intro m
      rw [hAm m]
      exact (reaches_flip_iff (childAdj s) (parentAdj s) hI.mirror m self).symm
    have hcA : c ∉ (s4.data self).all_ancestors := fun hh => hncP ((hAm c).mp hh)
    obtain ⟨hDesc5, hOut5, hEx5⟩ :=
      extendAncDescList_spec c ((s4.data self).all_ancestors) s4 hcA
    have hdesc4 : ∀ o, (s4.data o).all_descendants =
        ((addChildPre s self c).data o).all_descendants := hAnc4.desc_eq
    have hD4 : (s4.data c).all_descendants = (s.data c).all_descendants := by
      rw [hdesc4 c, hdescc3]
    have hchild5 : childAdj (extendAncDescList c s4 ((s4.data self).all_ancestors)) =
        childAdj (addChildPre s self c) := by
      rw [hDesc5.dchildAdj_eq, hAnc4.childAdj_eq]
    have hpar5 : parentAdj (extendAncDescList c s4 ((s4.data self).all_ancestors)) =
        parentAdj (addChildPre s self c) := by
      rw [hDesc5.dparentAdj_eq, hAnc4.parentAdj_eq]
    have halloc5 : (extendAncDescList c s4 ((s4.data self).all_ancestors)).alloc =
        s.alloc := by
      rw [hDesc5.alloc_eq, hAnc4.alloc_eq, addChildPre_alloc]
    have hnobj5 : (extendAncDescList c s4 ((s4.data self).all_ancestors)).nextObj =
        s.nextObj := by
      rw [hDesc5.nextObj_eq, hAnc4.nextObj_eq, addChildPre_nextObj]
    have hnuuid5 : (extendAncDescList c s4 ((s4.data self).all_ancestors)).nextUuid =
        s.nextUuid := by
      rw [hDesc5.nextUuid_eq, hAnc4.nextUuid_eq, addChildPre_nextUuid]
    have hmirror3 : ∀ a b, a ∈ childAdj (addChildPre s self c) b ↔
        b ∈ parentAdj (addChildPre s self c) a := by
      intro a b
      rw [hchild3 b, hpar3 a]
      by_cases hb : b = self
      · subst hb
        by_cases ha : a = c
        · subst ha
          rw [if_pos rfl, if_pos rfl]
          simp
        · rw [if_pos rfl, if_neg ha]
          simp only [List.mem_append, List.mem_singleton]
          rw [or_iff_left ha]
          exact hI.mirror a b
      · by_cases ha : a = c
        · subst ha
          rw [if_neg hb, if_pos rfl]
          simp only [List.mem_append, List.mem_singleton]
          rw [or_iff_left hb]
          exact hI.mirror a b
        · rw [if_neg hb, if_neg ha]
          exact hI.mirror a b
    have hdesc3alloc : ∀ o x,
        x ∈ ((addChildPre s self c).data o).all_descendants → x ∈ s.alloc := by
      intro o x hx
      rw [hdesc3 o] at hx
      by_cases ho : o = self
      · rw [if_pos ho] at hx
        rcases List.mem_append.mp hx with hx | hx
        · rcases List.mem_append.mp hx with hx | hx
          · exact hI.descAlloc o x hx
          · rw [List.mem_singleton.mp hx]; exact hc
        · exact hI.descAlloc c x hx
      · rw [if_neg ho] at hx
        exact hI.descAlloc o x hx
    refine ⟨?_, ?_, ?_, ?_, ?_, ?_, ?_, ?_, ?_, ?_, ?_⟩
    · -- mirror
      intro a b
      rw [hDesc5.dchildren_eq b, hAnc4.children_eq b,
        hDesc5.dparents_eq a, hAnc4.parents_eq a]
      exact hmirror3 a b
    · -- descExact
      intro n x
      rw [hchild5, hedgeC n x]
      by_cases hnA : n ∈ (s4.data self).all_ancestors
      · by_cases hns : n = self
        · subst hns
          rw [hEx5 n hnA x, hD4, hdesc4 n, hdesc3 n, if_pos rfl]
          simp only [List.mem_append, List.mem_singleton]
          rw [hI.descExact n x, hI.descExact c x]
          tauto
        · have hQ : Reaches (childAdj s) n self := (hAiffR n).mp hnA
          rw [hEx5 n hnA x, hD4, hdesc4 n, hdesc3 n, if_neg hns]
          rw [hI.descExact n x, hI.descExact c x]
          tauto
      · by_cases hns : n = self
        · subst hns
          rw [hOut5 n hnA, hdesc4 n, hdesc3 n, if_pos rfl]
          simp only [List.mem_append, List.mem_singleton]
          rw [hI.descExact n x, hI.descExact c x]
          tauto
        · have hQ : ¬ Reaches (childAdj s) n self := fun hh =>
            hnA ((hAiffR n).mpr hh)
          rw [hOut5 n hnA, hdesc4 n, hdesc3 n, if_neg hns]
          rw [hI.descExact n x]
          tauto
    · -- ancExact
      intro n x
      rw [hDesc5.anc_eq n, hpar5]
      by_cases hnL : n ∈ [c] ++ ((addChildPre s self c).data c).all_descendants
      · exact hEx4 n hnL x
      · rw [hOut4 n hnL, hanc3 n, hI.ancExact n x, hedgeP n x]
        have h1 : n ≠ c := by
          intro hh
          exact hnL (hh ▸ hcL)
        have h2 : ¬ Reaches (parentAdj s) n c := by
          intro hh
          apply hnL
          rw [hLiff n]
          exact Or.inr (reaches_flip (parentAdj s) (childAdj s)
            (fun a b => (hI.mirror b a).symm) hh)
        tauto
    · -- allocBound
      intro o ho
      rw [halloc5] at ho
      rw [hnobj5]
      exact hI.allocBound o ho
    · -- unallocDefault
      intro o ho
      rw [halloc5] at ho
      have hoc : o ≠ c := fun hh => ho (hh ▸ hc)
      have hos : o ≠ self := fun hh => ho (hh ▸ hself)
      have hoL : o ∉ [c] ++ ((addChildPre s self c).data c).all_descendants := by
        rw [hLiff o]
        rintro (rfl | hR)
        · exact hoc rfl
        · obtain ⟨z, hz⟩ := reaches_target_mem _ hR
          exact ho (hI.childrenAlloc z o hz)
      have hoA : o ∉ (s4.data self).all_ancestors := by
        intro hh
        rw [hA] at hh
        exact ho (hI.ancAlloc self o hh)
      rw [hOut5 o hoA, hOut4 o hoL, addChildPre_data_other s self c o hoc hos]
      exact hI.unallocDefault o ho
    · -- childrenAlloc
      intro o x hx
      rw [halloc5]
      rw [hDesc5.dchildren_eq o, hAnc4.children_eq o] at hx
      have hx' : x ∈ childAdj (addChildPre s self c) o := hx
      rw [hchild3 o] at hx'
      by_cases ho : o = self
      · rw [if_pos ho] at hx'
        rcases List.mem_append.mp hx' with hx' | hx'
        · exact hI.childrenAlloc o x hx'
        · rw [List.mem_singleton.mp hx']; exact hc
      · rw [if_neg ho] at hx'
        exact hI.childrenAlloc o x hx'
    · -- parentsAlloc
      intro o x hx
      rw [halloc5]
      rw [hDesc5.dparents_eq o, hAnc4.parents_eq o] at hx
      have hx' : x ∈ parentAdj (addChildPre s self c) o := hx
      rw [hpar3 o] at hx'
      by_cases ho : o = c
      · rw [if_pos ho] at hx'
        rcases List.mem_append.mp hx' with hx' | hx'
        · exact hI.parentsAlloc o x hx'
        · rw [List.mem_singleton.mp hx']; exact hself
      · rw [if_neg ho] at hx'
        exact hI.parentsAlloc o x hx'
    · -- descAlloc
      intro o x hx
      rw [halloc5]
      by_cases hoA : o ∈ (s4.data self).all_ancestors
      · rcases (hEx5 o hoA x).mp hx with hx' | hx' | hx'
        · rw [hdesc4 o] at hx'
          exact hdesc3alloc o x hx'
        · rw [hx']; exact hc
        · rw [hD4] at hx'
          exact hI.descAlloc c x hx'
      · rw [hOut5 o hoA, hdesc4 o] at hx
        exact hdesc3alloc o x hx
    · -- ancAlloc
      intro o x hx
      rw [halloc5]
      rw [hDesc5.anc_eq o] at hx
      by_cases hoL : o ∈ [c] ++ ((addChildPre s self c).data c).all_descendants
      · have hR := (hEx4 o hoL x).mp hx
        obtain ⟨z, hz⟩ := reaches_target_mem _ hR
        rw [hpar3 z] at hz
        by_cases hzc : z = c
        · rw [if_pos hzc] at hz
          rcases List.mem_append.mp hz with hz | hz
          · exact hI.parentsAlloc z x hz
          · rw [List.mem_singleton.mp hz]; exact hself
        · rw [if_neg hzc] at hz
          exact hI.parentsAlloc z x hz
      · rw [hOut4 o hoL, hanc3 o] at hx
        exact hI.ancAlloc o x hx
    · -- uuidBound
      intro o ho
      rw [halloc5] at ho
      rw [hnuuid5, hDesc5.dpyid_eq o, hAnc4.pyid_eq o, hpy3 o]
      exact hI.uuidBound o ho
    · -- parentNone
      intro o
      rw [hDesc5.dparent_eq o, hAnc4.parent_eq o, hparent3 o]
      exact hI.parentNone o

/-- Node construction preserves the store invariant. -/
theorem inv_newNode (s : St) (t nm : String) (pos rot : List Int)
    (hI : Inv s) : Inv (newNode s t nm pos rot).1 := by
  have hfresh : s.nextObj ∉ s.alloc := fun hh =>
    lt_irrefl _ (hI.allocBound _ hh)
  have hdef : s.data s.nextObj = defaultNodeData := hI.unallocDefault _ hfresh
  have hdata_other : ∀ o, o ≠ s.nextObj →
      (newNode s t nm pos rot).1.data o = s.data o := by
    intro o ho
    show Function.update s.data s.nextObj _ o = s.data o
    rw [Function.update_noteq ho]
  have hchild : childAdj (newNode s t nm pos rot).1 = childAdj s := by
    funext o
    show (Function.update s.data s.nextObj _ o).children_nodes =
      (s.data o).children_nodes
    by_cases ho : o = s.nextObj
    · subst ho
      rw [Function.update_same, hdef]
      rfl
    · rw [Function.update_noteq ho]
  have hpar : parentAdj (newNode s t nm pos rot).1 = parentAdj s := by
    funext o
    show (Function.update s.data s.nextObj _ o).parents_nodes =
      (s.data o).parents_nodes
    by_cases ho : o = s.nextObj
    · subst ho
      rw [Function.update_same, hdef]
      rfl
    · rw [Function.update_noteq ho]
  have halloc : (newNode s t nm pos rot).1.alloc = s.alloc ++ [s.nextObj] := rfl
  have hnew : (newNode s t nm pos rot).1.data s.nextObj =
      { ntype := t, nname := nm, pyid := s.nextUuid,
        posRef := s.nextRef, rotRef := s.nextRef + 1,
        propRef := s.nextRef + 2, geomRef := s.nextRef + 3,
        children_nodes := [], parents_nodes := [],
        all_descendants := [], all_ancestors := [], parent := none } := by
    show Function.update s.data s.nextObj _ s.nextObj = _
    rw [Function.update_same]
  refine ⟨?_, ?_, ?_, ?_, ?_, ?_, ?_, ?_, ?_, ?_, ?_⟩
  · intro a b
    have h1 : ((newNode s t nm pos rot).1.data b).children_nodes =
        childAdj s b := congrFun hchild b
    have h2 : ((newNode s t nm pos rot).1.data a).parents_nodes =
        parentAdj s a := congrFun hpar a
    rw [h1, h2]
    exact hI.mirror a b
  · intro n x
    rw [hchild]
    by_cases hn : n = s.nextObj
    · subst hn
      rw [hnew]
      constructor
      · intro hx
        simp at hx
      · intro hR
        have hempty : childAdj s s.nextObj = [] := by
          show (s.data s.nextObj).children_nodes = []
          rw [hdef]
          rfl
        rcases (reaches_iff _ _ _).mp hR with hx | ⟨b, hb, _⟩
        · rw [hempty] at hx
          simp at hx
        · rw [hempty] at hb
          simp at hb
    · rw [hdata_other n hn]
      exact hI.descExact n x
  · intro n x
    rw [hpar]
    by_cases hn : n = s.nextObj
    · subst hn
      rw [hnew]
      constructor
      · intro hx
        simp at hx
      · intro hR
        have hempty : parentAdj s s.nextObj = [] := by
          show (s.data s.nextObj).parents_nodes = []
          rw [hdef]
          rfl
        rcases (reaches_iff _ _ _).mp hR with hx | ⟨b, hb, _⟩
        · rw [hempty] at hx
          simp at hx
        · rw [hempty] at hb
          simp at hb
    · rw [hdata_other n hn]
      exact hI.ancExact n x
  · intro o ho
    rw [halloc] at ho
    show o < s.nextObj + 1
    rcases List.mem_append.mp ho with ho | ho
    · exact Nat.lt_succ_of_lt (hI.allocBound o ho)
    · rw [List.mem_singleton.mp ho]
      exact Nat.lt_succ_self _
  · intro o ho
    rw [halloc] at ho
    have ho1 : o ∉ s.alloc := fun hh => ho (List.mem_append_left _ hh)
    have ho2 : o ≠ s.nextObj := fun hh =>
      ho (List.mem_append_right _ (List.mem_singleton.mpr hh))
    rw [hdata_other o ho2]
    exact hI.unallocDefault o ho1
  · intro o x hx
    rw [halloc]
    by_cases ho : o = s.nextObj
    · subst ho
      rw [hnew] at hx
      simp at hx
    · rw [hdata_other o ho] at hx
      exact List.mem_append_left _ (hI.childrenAlloc o x hx)
  · intro o x hx
    rw [halloc]
    by_cases ho : o = s.nextObj
    · subst ho
      rw [hnew] at hx
      simp at hx
    · rw [hdata_other o ho] at hx
      exact List.mem_append_left _ (hI.parentsAlloc o x hx)
  · intro o x hx
    rw [halloc]
    by_cases ho : o = s.nextObj
    · subst ho
      rw [hnew] at hx
      simp at hx
    · rw [hdata_other o ho] at hx
      exact List.mem_append_left _ (hI.descAlloc o x hx)
  · intro o x hx
    rw [halloc]
    by_cases ho : o = s.nextObj
    · subst ho
      rw [hnew] at hx
      simp at hx
    · rw [hdata_other o ho] at hx
      exact List.mem_append_left _ (hI.ancAlloc o x hx)
  · intro o ho
    rw [halloc] at ho
    show ((newNode s t nm pos rot).1.data o).pyid < s.nextUuid + 1
    by_cases hon : o = s.nextObj
    · subst hon
      rw [hnew]
      exact Nat.lt_succ_self _
    · rw [hdata_other o hon]
      rcases List.mem_append.mp ho with ho | ho
      · exact Nat.lt_succ_of_lt (hI.uuidBound o ho)
      · exact absurd (List.mem_singleton.mp ho) hon
  · intro o
    by_cases ho : o = s.nextObj
    · subst ho
      rw [hnew]
    · rw [hdata_other o ho]
      exact hI.parentNone o

theorem inv_empty : Inv emptySt := by
  have hnoR : ∀ (adj : Nat → List Nat), (∀ n, adj n = []) →
      ∀ a b, ¬ Reaches adj a b := by
    intro adj hadj a b hR
    rcases (reaches_iff _ _ _).mp hR with hx | ⟨z, hz, _⟩
    · rw [hadj a] at hx; simp at hx
    · rw [hadj a] at hz; simp at hz
  refine ⟨?_, ?_, ?_, ?_, ?_, ?_, ?_, ?_, ?_, ?_, ?_⟩
  · intro a b
    constructor <;> intro h <;> simp [emptySt, defaultNodeData] at h
  · intro n x
    constructor
    · intro h; simp [emptySt, defaultNodeData] at h
    · intro h; exact absurd h (hnoR _ (fun _ => rfl) n x)
  · intro n x
    constructor
    · intro h; simp [emptySt, defaultNodeData] at h
    · intro h; exact absurd h (hnoR _ (fun _ => rfl) n x)
  · intro o ho; simp [emptySt] at ho
  · intro o _; rfl
  · intro o x hx; simp [emptySt, defaultNodeData] at hx
  · intro o x hx; simp [emptySt, defaultNodeData] at hx
  · intro o x hx; simp [emptySt, defaultNodeData] at hx
  · intro o x hx; simp [emptySt, defaultNodeData] at hx
  · intro o ho; simp [emptySt] at ho
  · intro o; rfl

/-- Preservation of the store invariant by one validated add_child
iteration. -/
theorem inv_addChildCore (fuel self c : Nat) (s s' : St) (hI : Inv s)
    (hself : self ∈ s.alloc)
    (h : addChildCore fuel s self c = some (Except.ok s')) : Inv s' := by
  rw [addChildCore] at h
  split_ifs at h with h1 h2 h3 h4 h5 h6 <;>
    first
      | simp at h
      | exact inv_addChildMutate fuel self c s s' hI hself h1 h
      | exact inv_addChildMutate fuel self c s s' hI hself (not_not.mp h1) h

/-- Stores reachable through the public construction and mutation API:
start empty, allocate nodes with Node.__init__, and perform successful
add_child iterations whose self argument is a live node. -/
inductive Built : St → Prop
  | init : Built emptySt
  | node (s : St) (t nm : String) (pos rot : List Int) (h : Built s) :
      Built (newNode s t nm pos rot).1
  | add (s s' : St) (fuel self c : Nat) (h : Built s) (hself : self ∈ s.alloc)
      (hadd : addChildCore fuel s self c = some (Except.ok s')) : Built s'

theorem inv_built (s : St) (h : Built s) : Inv s := by
  induction h with
  | init => exact inv_empty
  | node s t nm pos rot _ ih => exact inv_newNode s t nm pos rot ih
  | add s s' fuel self c _ hself hadd ih =>
      exact inv_addChildCore fuel self c s s' ih hself hadd

/-- C4: cache consistency.  In every store built by a sequence of node
constructions and successful add_child calls, every node's all_descendants
cache is exactly (as a set) what repeated child-expansion reaches, and
every cached descendant's all_ancestors cache contains the node. -/
theorem C4_cache_consistency (s : St) (hB : Built s) :
    (∀ n x, x ∈ (s.data n).all_descendants ↔ Reaches (childAdj s) n x) ∧
    (∀ n x, x ∈ (s.data n).all_descendants → n ∈ (s.data x).all_ancestors) := by
  have hI := inv_built s hB
  refine ⟨hI.descExact, ?_⟩
  intro n x hx
  have hR : Reaches (childAdj s) n x := (hI.descExact n x).mp hx
  have hP : Reaches (parentAdj s) x n :=
    reaches_flip (childAdj s) (parentAdj s) hI.mirror hR
  exact (hI.ancExact x n).mpr hP

/-- Concrete two-node store for the C4 witness. -/
def c4base : St :=
  (newNode (newNode emptySt "group" "a" [0, 0, 0] [0, 0, 0]).1
    "group" "b" [0, 0, 0] [0, 0, 0]).1

/-- Store after the successful call a.add_child(b). -/
def c4demo : St := (okState (addChildCore 9 c4base 0 1)).getD emptySt

theorem c4demo_built : Built c4demo := by
  have h1 : Built c4base :=
    Built.node _ _ _ _ _ (Built.node _ _ _ _ _ Built.init)
  exact Built.add c4base c4demo 9 0 1 h1 (by decide) (by rfl)

/-- Witness for C4 on the concrete two-node store. -/
theorem C4_cache_consistency_witness :
    1 ∈ (c4demo.data 0).all_descendants ↔ Reaches (childAdj c4demo) 0 1 :=
  (C4_cache_consistency c4demo c4demo_built).1 0 1

/-- Object references held directly by a node: copy.deepcopy follows every
attribute, so a node leads to its children, parents and both caches. -/
def deepcopyAdj (s : St) (o : Nat) : List Nat :=
  (s.data o).children_nodes ++ (s.data o).parents_nodes ++
    (s.data o).all_descendants ++ (s.data o).all_ancestors

/-- Depth-first closure with a visited list: the set of objects
copy.deepcopy memoizes when called on the start node.  The fuel bounds the
walk. -/
def componentAux (adj : Nat → List Nat) : Nat → List Nat → List Nat → Option (List Nat)
  | _, [], visited => some visited
  | 0, _ :: _, _ => none
  | fuel + 1, x :: rest, visited =>
      if x ∈ visited then componentAux adj fuel rest visited
      else componentAux adj fuel (adj x ++ rest) (visited ++ [x])

/-- Objects reachable from the copied node through any attribute. -/
def componentOf (fuel : Nat) (s : St) (n : Nat) : Option (List Nat) :=
  componentAux (deepcopyAdj s) fuel [n] []

/-- Identity of the deepcopy of each component member: fresh store
addresses in component order; identities outside the component are left in
place (they are never dereferenced by the copy). -/
def cloneMap (s : St) (comp : List Nat) : Nat → Nat :=
  fun o => if o ∈ comp then s.nextObj + comp.indexOf o else o

/-- Field record of the copy of one node: same attribute values with every
object reference redirected to its copy, and the four mutable containers
replaced by fresh containers holding copies of the contents. -/
def remapNode (f : Nat → Nat) (refBase : Nat) (nd : NodeData) : NodeData :=
  { nd with
    posRef := refBase, rotRef := refBase + 1,
    propRef := refBase + 2, geomRef := refBase + 3,
    children_nodes := nd.children_nodes.map f,
    parents_nodes := nd.parents_nodes.map f,
    all_descendants := nd.all_descendants.map f,
    all_ancestors := nd.all_ancestors.map f,
    parent := nd.parent.map f }

/-- Store after copy.deepcopy of the component: every member gets a fresh
copy at a fresh address with remapped references, fresh containers holding
the old contents, and the same uuid string (deepcopy copies the id value;
_reset_ids regenerates it afterwards). -/
def deepcopyGraph (s : St) (comp : List Nat) : St :=
  { alloc := s.alloc ++ comp.map (cloneMap s comp)
    nextObj := s.nextObj + comp.length
    nextUuid := s.nextUuid
    nextRef := s.nextRef + 4 * comp.length
    listHeap := fun r =>
      if s.nextRef ≤ r ∧ r < s.nextRef + 4 * comp.length then
        match comp.get? ((r - s.nextRef) / 4) with
        | some o =>
            s.listHeap
              (if (r - s.nextRef) % 4 = 0 then (s.data o).posRef
               else if (r - s.nextRef) % 4 = 1 then (s.data o).rotRef
               else if (r - s.nextRef) % 4 = 2 then (s.data o).propRef
               else (s.data o).geomRef)
        | none => s.listHeap r
      else s.listHeap r
    data := fun x =>
      if s.nextObj ≤ x then
        match comp.get? (x - s.nextObj) with
        | some o =>
            remapNode (cloneMap s comp)
              (s.nextRef + 4 * (x - s.nextObj)) (s.data o)
        | none => s.data x
      else s.data x }

/-- Assignment node.id = str(uuid.uuid4()): a fresh value from the uuid
counter. -/
def assignUuid (s : St) (node : Nat) : St :=
  { s with
    data := Function.update s.data node
      { s.data node with pyid := s.nextUuid },
    nextUuid := s.nextUuid + 1 }

/-- Node._reset_ids (node.py lines 247 to 256) over an explicit worklist:
give the head a fresh uuid, recurse into its children, then handle the
rest.  The fuel bounds the recursion. -/
def reset_ids_aux : Nat → St → List Nat → Option St
  | _, s, [] => some s
  | 0, _, _ :: _ => none
  | fuel + 1, s, node :: rest =>
      match reset_ids_aux fuel (assignUuid s node)
          (((assignUuid s node).data node).children_nodes) with
      | none => none
      | some s2 => reset_ids_aux fuel s2 rest

/-- Node._reset_ids on one node. -/
def reset_ids (fuel : Nat) (s : St) (node : Nat) : Option St :=
  reset_ids_aux fuel s [node]

/-- Python list.index with equality: position of the first occurrence. -/
def pyIndex (a : Nat) : List Nat → Option Nat
  | [] => none
  | x :: xs => if x = a then some 0 else (pyIndex a xs).map (· + 1)

/-- Truncation loop of deepcopy_node (node.py lines 232 to 238): each
descendant of the copy keeps its ancestor list only up to and including the
copy.  The none result models the ValueError raised by list.index when the
copy is missing from a descendant's all_ancestors. -/
def truncAncestors (copied : Nat) : St → List Nat → Option St
  | s, [] => some s
  | s, d :: rest =>
      match pyIndex copied (s.data d).all_ancestors with
      | none => none
      | some i =>
          truncAncestors copied
            (setData s d
              { s.data d with
                all_ancestors := (s.data d).all_ancestors.take (i + 1) })
            rest

/-- Node.deepcopy_node with copy_children=True (node.py lines 228 to 238
and 245): deep-copy the object graph reachable from the node, regenerate
the uuid of the copy and recursively of its children, clear the copy's
all_ancestors, truncate each copied descendant's all_ancestors at the
copy.  The result is the final store and the copy's address; none models
divergence or the list.index ValueError. -/
def deepcopy_node_true (fuel : Nat) (s : St) (n : Nat) :
    Option (St × Nat) :=
  match componentOf fuel s n with
  | none => none
  | some comp =>
      let s1 := deepcopyGraph s comp
      let copied := cloneMap s comp n
      match reset_ids fuel s1 copied with
      | none => none
      | some s2 =>
          let s3 := setData s2 copied
            { s2.data copied with all_ancestors := [] }
          match truncAncestors copied s3 ((s3.data copied).all_descendants) with
          | none => none
          | some s4 => some (s4, copied)

/-- A completed closure walk visits a duplicate-free superset of the
visited list and the stack that is closed under the adjacency. -/
theorem componentAux_spec (adj : Nat → List Nat) : ∀ (fuel : Nat)
    (stack visited comp : List Nat),
    componentAux adj fuel stack visited = some comp →
    visited.Nodup →
    (∀ v ∈ visited, ∀ y ∈ adj v, y ∈ visited ∨ y ∈ stack) →
    comp.Nodup ∧
    (∀ v ∈ visited, v ∈ comp) ∧
    (∀ x ∈ stack, x ∈ comp) ∧
    (∀ v ∈ comp, ∀ y ∈ adj v, y ∈ comp) := by
  intro fuel
  induction fuel with
  | zero =>
    intro stack visited comp h hnd hcl
    cases stack with
    | nil =>
      simp only [componentAux, Option.some.injEq] at h
      subst h
      refine ⟨hnd, fun v hv => hv, by simp, ?_⟩
      intro v hv y hy
      rcases hcl v hv y hy with h | h
      · exact h
      · simp at h
    | cons a as => simp [componentAux] at h
  | succ n ih =>
    intro stack visited comp h hnd hcl
    cases stack with
    | nil =>
      simp only [componentAux, Option.some.injEq] at h
      subst h
      refine ⟨hnd, fun v hv => hv, by simp, ?_⟩
      intro v hv y hy
      rcases hcl v hv y hy with h | h
      · exact h
      · simp at h
    | cons x rest =>
      rw [componentAux] at h
      by_cases hx : x ∈ visited
      · rw [if_pos hx] at h
        have hcl' : ∀ v ∈ visited, ∀ y ∈ adj v, y ∈ visited ∨ y ∈ rest := by
          intro v hv y hy
          rcases hcl v hv y hy with h' | h'
          · exact Or.inl h'
          · rcases List.mem_cons.mp h' with rfl | h'
            · exact Or.inl hx
            · exact Or.inr h'
        obtain ⟨h1, h2, h3, h4⟩ := ih rest visited comp h hnd hcl'
        refine ⟨h1, h2, ?_, h4⟩
        intro z hz
        rcases List.mem_cons.mp hz with rfl | hz
        · exact h2 z hx
        · exact h3 z hz
      · rw [if_neg hx] at h
        have hnd' : (visited ++ [x]).Nodup := by
          rw [List.nodup_append]
          exact ⟨hnd, List.nodup_singleton x, by simpa using hx⟩
        have hcl' : ∀ v ∈ visited ++ [x], ∀ y ∈ adj v,
            y ∈ visited ++ [x] ∨ y ∈ adj x ++ rest := by
          intro v hv y hy
          rcases List.mem_append.mp hv with hv | hv
          · rcases hcl v hv y hy with h' | h'
            · exact Or.inl (List.mem_append_left _ h')
            · rcases List.mem_cons.mp h' with rfl | h'
              · exact Or.inl (List.mem_append_right _ (by simp))
              · exact Or.inr (List.mem_append_right _ h')
          · have hvx : v = x := by simpa using hv
            subst hvx
            exact Or.inr (List.mem_append_left _ hy)
        obtain ⟨h1, h2, h3, h4⟩ := ih (adj x ++ rest) (visited ++ [x]) comp h hnd' hcl'
        refine ⟨h1, ?_, ?_, h4⟩
        · intro v hv
          exact h2 v (List.mem_append_left _ hv)
        · intro z hz
          rcases List.mem_cons.mp hz with rfl | hz
          · exact h2 z (List.mem_append_right _ (by simp))
          · exact h3 z (List.mem_append_right _ hz)

/-- A completed closure walk stays inside any adjacency-closed set
containing the stack and the visited list. -/
theorem componentAux_closed (adj : Nat → List Nat) (good : Nat → Prop)
    (hg : ∀ x, good x → ∀ y ∈ adj x, good y) : ∀ (fuel : Nat)
    (stack visited comp : List Nat),
    componentAux adj fuel stack visited = some comp →
    (∀ x ∈ stack, good x) → (∀ v ∈ visited, good v) →
    ∀ v ∈ comp, good v := by
  intro fuel
  induction fuel with
  | zero =>
    intro stack visited comp h hs hv v hvc
    cases stack with
    | nil =>
      simp only [componentAux, Option.some.injEq] at h
      subst h
      exact hv v hvc
    | cons a as => simp [componentAux] at h
  | succ n ih =>
    intro stack visited comp h hs hv v hvc
    cases stack with
    | nil =>
      simp only [componentAux, Option.some.injEq] at h
      subst h
      exact hv v hvc
    | cons x rest =>
      rw [componentAux] at h
      by_cases hx : x ∈ visited
      · rw [if_pos hx] at h
        exact ih rest visited comp h
          (fun z hz => hs z (List.mem_cons_of_mem _ hz)) hv v hvc
      · rw [if_neg hx] at h
        have hgx : good x := hs x (List.mem_cons_self _ _)
        refine ih (adj x ++ rest) (visited ++ [x]) comp h ?_ ?_ v hvc
        · intro z hz
          rcases List.mem_append.mp hz with hz | hz
          · exact hg x hgx z hz
          · exact hs z (List.mem_cons_of_mem _ hz)
        · intro z hz
          rcases List.mem_append.mp hz with hz | hz
          · exact hv z hz
          · have : z = x := by simpa using hz
            exact this ▸ hgx

theorem cloneMap_mem (s : St) (comp : List Nat) (o : Nat) (ho : o ∈ comp) :
    cloneMap s comp o = s.nextObj + comp.indexOf o := by
  rw [cloneMap, if_pos ho]

theorem cloneMap_ge (s : St) (comp : List Nat) (o : Nat) (ho : o ∈ comp) :
    s.nextObj ≤ cloneMap s comp o := by
  rw [cloneMap_mem s comp o ho]
  exact Nat.le_add_right _ _

theorem cloneMap_lt (s : St) (comp : List Nat) (o : Nat) (ho : o ∈ comp) :
    cloneMap s comp o < s.nextObj + comp.length := by
  rw [cloneMap_mem s comp o ho]
  exact Nat.add_lt_add_left (List.indexOf_lt_length.mpr ho) _

theorem cloneMap_inj_on (s : St) (comp : List Nat) (a b : Nat)
    (ha : a ∈ comp) (hb : b ∈ comp)
    (h : cloneMap s comp a = cloneMap s comp b) : a = b := by
  rw [cloneMap_mem s comp a ha, cloneMap_mem s comp b hb] at h
  have hidx : comp.indexOf a = comp.indexOf b := Nat.add_left_cancel h
  exact (List.indexOf_inj ha hb).mp hidx

theorem deepcopyGraph_data_clone (s : St) (comp : List Nat) (o : Nat)
    (ho : o ∈ comp) :
    (deepcopyGraph s comp).data (cloneMap s comp o) =
      remapNode (cloneMap s comp)
        (s.nextRef + 4 * comp.indexOf o) (s.data o) := by
  have hidx : comp.indexOf o < comp.length := List.indexOf_lt_length.mpr ho
  show (if s.nextObj ≤ cloneMap s comp o then _ else _) = _
  rw [cloneMap_mem s comp o ho, if_pos (Nat.le_add_right _ _),
    Nat.add_sub_cancel_left]
  rw [List.get?_eq_get hidx, List.indexOf_get hidx]

theorem deepcopyGraph_data_orig (s : St) (comp : List Nat) (o : Nat)
    (ho : o < s.nextObj) :
    (deepcopyGraph s comp).data o = s.data o := by
  show (if s.nextObj ≤ o then _ else _) = _
  rw [if_neg (by omega)]

theorem deepcopyGraph_alloc (s : St) (comp : List Nat) :
    (deepcopyGraph s comp).alloc = s.alloc ++ comp.map (cloneMap s comp) := rfl

theorem deepcopyGraph_nextUuid (s : St) (comp : List Nat) :
    (deepcopyGraph s comp).nextUuid = s.nextUuid := rfl

/-- The uuid of every store address after the copy is the uuid of some
original (either of the copied original or of the address itself). -/
theorem deepcopyGraph_pyid (s : St) (comp : List Nat) (o : Nat) :
    ∃ o', ((deepcopyGraph s comp).data o).pyid = (s.data o').pyid ∧
      (o' ∈ comp ∨ o' = o) := by
  by_cases h : s.nextObj ≤ o
  · have hd : (deepcopyGraph s comp).data o =
        (match comp.get? (o - s.nextObj) with
         | some o' =>
             remapNode (cloneMap s comp)
               (s.nextRef + 4 * (o - s.nextObj)) (s.data o')
         | none => s.data o) := by
      show (if s.nextObj ≤ o then _ else _) = _
      rw [if_pos h]
    cases hg : comp.get? (o - s.nextObj) with
    | none =>
      rw [hg] at hd
      exact ⟨o, by rw [hd], Or.inr rfl⟩
    | some o' =>
      rw [hg] at hd
      refine ⟨o', by rw [hd]; rfl, Or.inl ?_⟩
      exact List.get?_mem hg
  · exact ⟨o, by rw [deepcopyGraph_data_orig s comp o (by omega)], Or.inr rfl⟩

/-- Freshness window for uuid values: the window start U is below the
counter, every stored uuid is below the counter, and uuids inside the
window are pairwise distinct across distinct addresses. -/
def UuidWindow (U : Nat) (s : St) : Prop :=
  U ≤ s.nextUuid ∧ (∀ o, (s.data o).pyid < s.nextUuid) ∧
  (∀ a b, a ≠ b → U ≤ (s.data a).pyid → U ≤ (s.data b).pyid →
    (s.data a).pyid ≠ (s.data b).pyid)

theorem pyid_shape_trans (nd1 nd2 nd3 : NodeData) (u1 u2 : Nat)
    (h12 : u1 ≤ u2)
    (hA : nd2 = nd1 ∨ (nd2 = { nd1 with pyid := nd2.pyid } ∧ u1 ≤ nd2.pyid))
    (hB : nd3 = nd2 ∨ (nd3 = { nd2 with pyid := nd3.pyid } ∧ u2 ≤ nd3.pyid)) :
    nd3 = nd1 ∨ (nd3 = { nd1 with pyid := nd3.pyid } ∧ u1 ≤ nd3.pyid) := by
  rcases hA with rfl | ⟨hA1, hA2⟩
  · rcases hB with rfl | ⟨hB1, hB2⟩
    · exact Or.inl rfl
    · exact Or.inr ⟨hB1, le_trans h12 hB2⟩
  · rcases hB with rfl | ⟨hB1, hB2⟩
    · exact Or.inr ⟨hA1, hA2⟩
    · refine Or.inr ⟨?_, le_trans h12 hB2⟩
      refine hB1.trans ?_
      rw [hA1]

theorem assignUuid_data_same (s : St) (node : Nat) :
    (assignUuid s node).data node = { s.data node with pyid := s.nextUuid } := by
  show Function.update s.data node _ node = _
  rw [Function.update_same]

theorem assignUuid_data_other (s : St) (node o : Nat) (h : o ≠ node) :
    (assignUuid s node).data o = s.data o := by
  show Function.update s.data node _ o = _
  rw [Function.update_noteq h]

theorem assignUuid_childAdj (s : St) (node : Nat) :
    childAdj (assignUuid s node) = childAdj s := by
  funext o
  by_cases ho : o = node
  · subst ho
    show ((assignUuid s o).data o).children_nodes = _
    rw [assignUuid_data_same]
    rfl
  · show ((assignUuid s node).data o).children_nodes = _
    rw [assignUuid_data_other s node o ho]
    rfl

theorem assignUuid_window (U : Nat) (s : St) (node : Nat)
    (hW : UuidWindow U s) : UuidWindow U (assignUuid s node) := by
  obtain ⟨h1, h2, h3⟩ := hW
  refine ⟨Nat.le_succ_of_le h1, ?_, ?_⟩
  · intro o
    show ((assignUuid s node).data o).pyid < s.nextUuid + 1
    by_cases ho : o = node
    · subst ho
      rw [assignUuid_data_same]
      exact Nat.lt_succ_self _
    · rw [assignUuid_data_other s node o ho]
      exact Nat.lt_succ_of_lt (h2 o)
  · intro a b hab ha hb
    show ((assignUuid s node).data a).pyid ≠ ((assignUuid s node).data b).pyid
    by_cases hA : a = node
    · subst hA
      rw [assignUuid_data_same]
      have hbn : b ≠ a := Ne.symm hab
      rw [assignUuid_data_other s a b hbn]
      intro hcontra
      exact absurd hcontra.symm (Nat.ne_of_lt (h2 b))
    · rw [assignUuid_data_other s node a hA]
      by_cases hB : b = node
      · subst hB
        rw [assignUuid_data_same]
        intro hcontra
        exact absurd hcontra (Nat.ne_of_lt (h2 a))
      · rw [assignUuid_data_other s node b hB]
        rw [assignUuid_data_other s node a hA] at ha
        rw [assignUuid_data_other s node b hB] at hb
        exact h3 a b hab ha hb

/-- Main specification of the recursive uuid reset: it keeps the freshness
window, changes nothing but pyid values, touches only the worklist and its
child-reachable closure, assigns every touched-by-worklist node a uuid
inside the window, and never lowers a uuid back out of the window. -/
theorem reset_ids_aux_spec (U : Nat) : ∀ (fuel : Nat) (l : List Nat)
    (s s' : St), reset_ids_aux fuel s l = some s' → UuidWindow U s →
    UuidWindow U s' ∧ s.nextUuid ≤ s'.nextUuid ∧
    (∀ o, s'.data o = s.data o ∨
      (s'.data o = { s.data o with pyid := (s'.data o).pyid } ∧
       s.nextUuid ≤ (s'.data o).pyid)) ∧
    (∀ o, s'.data o ≠ s.data o →
      o ∈ l ∨ ∃ a ∈ l, Reaches (childAdj s) a o) ∧
    (∀ o, (o ∈ l ∨ ∃ a ∈ l, Reaches (childAdj s) a o) →
      U ≤ (s'.data o).pyid) ∧
    (∀ o, U ≤ (s.data o).pyid → U ≤ (s'.data o).pyid) ∧
    s'.alloc = s.alloc ∧ s'.nextObj = s.nextObj ∧ s'.nextRef = s.nextRef ∧
    s'.listHeap = s.listHeap := by
  intro fuel
  induction fuel with
  | zero =>
    intro l s s' h hW
    cases l with
    | nil =>
      simp only [reset_ids_aux, Option.some.injEq] at h
      subst h
      refine ⟨hW, le_refl _, fun o => Or.inl rfl, ?_, ?_, fun o hp => hp,
        rfl, rfl, rfl, rfl⟩
      · intro o ho
        exact absurd rfl ho
      · intro o ho
        rcases ho with ho | ⟨a, ha, _⟩
        · simp at ho
        · simp at ha
    | cons a as => simp [reset_ids_aux] at h
  | succ n ih =>
    intro l s s' h hW
    cases l with
    | nil =>
      simp only [reset_ids_aux, Option.some.injEq] at h
      subst h
      refine ⟨hW, le_refl _, fun o => Or.inl rfl, ?_, ?_, fun o hp => hp,
        rfl, rfl, rfl, rfl⟩
      · intro o ho
        exact absurd rfl ho
      · intro o ho
        rcases ho with ho | ⟨a, ha, _⟩
        · simp at ho
        · simp at ha
    | cons node rest =>
      rw [reset_ids_aux] at h
      cases hrec1 : reset_ids_aux n (assignUuid s node)
          (((assignUuid s node).data node).children_nodes) with
      | none => rw [hrec1] at h; simp at h
      | some s2 =>
        rw [hrec1] at h
        dsimp only at h
        have hW1 : UuidWindow U (assignUuid s node) := assignUuid_window U s node hW
        obtain ⟨hW2, hle2, hshape2, hchg2, hcov2, hper2, hal2, hob2, hrf2, hhp2⟩ :=
          ih _ _ _ hrec1 hW1
        obtain ⟨hW3, hle3, hshape3, hchg3, hcov3, hper3, hal3, hob3, hrf3, hhp3⟩ :=
          ih _ _ _ h hW2
        have hCA1 : childAdj (assignUuid s node) = childAdj s :=
          assignUuid_childAdj s node
        have hCA2 : childAdj s2 = childAdj s := by
          funext o
          show (s2.data o).children_nodes = (s.data o).children_nodes
          rcases hshape2 o with he | ⟨he, _⟩
          · rw [he]
            exact congrFun hCA1 o
          · rw [he]
            show ((assignUuid s node).data o).children_nodes =
              (s.data o).children_nodes
            exact congrFun hCA1 o
        have hstep0 : ∀ o, (assignUuid s node).data o = s.data o ∨
            ((assignUuid s node).data o =
              { s.data o with pyid := ((assignUuid s node).data o).pyid } ∧
             s.nextUuid ≤ ((assignUuid s node).data o).pyid) := by
          intro o
          by_cases ho : o = node
          · subst ho
            refine Or.inr ⟨?_, ?_⟩
            · rw [assignUuid_data_same]
            · rw [assignUuid_data_same]
          · exact Or.inl (assignUuid_data_other s node o ho)
        have hshape02 : ∀ o, s2.data o = s.data o ∨
            (s2.data o = { s.data o with pyid := (s2.data o).pyid } ∧
             s.nextUuid ≤ (s2.data o).pyid) := by
          intro o
          exact pyid_shape_trans (s.data o) ((assignUuid s node).data o)
            (s2.data o) s.nextUuid (s.nextUuid + 1) (Nat.le_succ _)
            (hstep0 o) (hshape2 o)
        refine ⟨hW3, ?_, ?_, ?_, ?_, ?_, ?_, ?_, ?_, ?_⟩
        · exact le_trans (Nat.le_succ _) (le_trans hle2 hle3)
        · intro o
          exact pyid_shape_trans (s.data o) (s2.data o) (s'.data o)
            s.nextUuid s2.nextUuid (le_trans (Nat.le_succ _) hle2)
            (hshape02 o) (hshape3 o)
        · intro o hne
          by_cases e3 : s'.data o = s2.data o
          · by_cases e2 : s2.data o = (assignUuid s node).data o
            · have e1 : (assignUuid s node).data o ≠ s.data o := by
                intro hq
                exact hne (e3.trans (e2.trans hq))
              by_cases ho : o = node
              · refine Or.inl ?_
                rw [ho]
                exact List.mem_cons_self _ _
              · exact absurd (assignUuid_data_other s node o ho) e1
            · rcases hchg2 o e2 with hin | ⟨a, ha, hR⟩
              · have hin' : o ∈ childAdj s node := by
                  rw [← congrFun hCA1 node]
                  exact hin
                exact Or.inr ⟨node, List.mem_cons_self _ _, Reaches.step hin'⟩
              · have ha' : a ∈ childAdj s node := by
                  rw [← congrFun hCA1 node]
                  exact ha
                have hR' : Reaches (childAdj s) a o := by
                  rw [← hCA1]
                  exact hR
                exact Or.inr ⟨node, List.mem_cons_self _ _,
                  Reaches.trans ha' hR'⟩
          · rcases hchg3 o e3 with hin | ⟨a, ha, hR⟩
            · exact Or.inl (List.mem_cons_of_mem _ hin)
            · have hR' : Reaches (childAdj s) a o := by
                rw [← hCA2]
                exact hR
              exact Or.inr ⟨a, List.mem_cons_of_mem _ ha, hR'⟩
        · intro o ho
          rcases ho with hin | ⟨a, ha, hR⟩
          · rcases List.mem_cons.mp hin with hin | hin
            · subst hin
              have h0 : U ≤ ((assignUuid s o).data o).pyid := by
                rw [assignUuid_data_same]
                exact hW.1
              exact hper3 o (hper2 o h0)
            · exact hcov3 o (Or.inl hin)
          · rcases List.mem_cons.mp ha with haq | ha
            · subst haq
              rcases (reaches_iff (childAdj s) a o).mp hR with hin | ⟨b, hb, hbR⟩
              · have hin1 : o ∈ ((assignUuid s a).data a).children_nodes := by
                  show o ∈ childAdj (assignUuid s a) a
                  rw [congrFun hCA1 a]
                  exact hin
                exact hper3 o (hcov2 o (Or.inl hin1))
              · have hb1 : b ∈ ((assignUuid s a).data a).children_nodes := by
                  show b ∈ childAdj (assignUuid s a) a
                  rw [congrFun hCA1 a]
                  exact hb
                have hbR1 : Reaches (childAdj (assignUuid s a)) b o := by
                  rw [hCA1]
                  exact hbR
                exact hper3 o (hcov2 o (Or.inr ⟨b, hb1, hbR1⟩))
            · have hR2 : Reaches (childAdj s2) a o := by
                rw [hCA2]
                exact hR
              exact hcov3 o (Or.inr ⟨a, ha, hR2⟩)
        · intro o hp
          have h0 : U ≤ ((assignUuid s node).data o).pyid := by
            by_cases ho : o = node
            · subst ho
              rw [assignUuid_data_same]
              exact hW.1
            · rw [assignUuid_data_other s node o ho]
              exact hp
          exact hper3 o (hper2 o h0)
        · exact hal3.trans (hal2.trans rfl)
        · exact hob3.trans (hob2.trans rfl)
        · exact hrf3.trans (hrf2.trans rfl)
        · exact hhp3.trans (hhp2.trans rfl)

/-- The ancestor-truncation loop changes only all_ancestors caches, and
only of listed nodes. -/
theorem truncAncestors_spec (copied : Nat) : ∀ (L : List Nat) (s s' : St),
    truncAncestors copied s L = some s' →
    AncOnly s s' ∧ (∀ o, o ∉ L → s'.data o = s.data o) := by
  intro L
  induction L with
  | nil =>
    intro s s' h
    simp only [truncAncestors, Option.some.injEq] at h
    subst h
    exact ⟨AncOnly.refl s, fun o _ => rfl⟩
  | cons d rest ih =>
    intro s s' h
    rw [truncAncestors] at h
    cases hidx : pyIndex copied (s.data d).all_ancestors with
    | none => rw [hidx] at h; simp at h
    | some i =>
      rw [hidx] at h
      dsimp only at h
      have hstep : AncOnly s (setData s d
          { s.data d with
            all_ancestors := (s.data d).all_ancestors.take (i + 1) }) := by
        refine ⟨rfl, rfl, rfl, rfl, rfl, ?_⟩
        intro o
        by_cases ho : o = d
        · subst ho
          rw [data_setData_same]
        · rw [data_setData_other _ _ _ _ ho]
      obtain ⟨hAnc, hOut⟩ := ih _ s' h
      refine ⟨hstep.trans hAnc, ?_⟩
      intro o ho
      have ho1 : o ≠ d := fun hh => ho (hh ▸ List.mem_cons_self _ _)
      have ho2 : o ∉ rest := fun hh => ho (List.mem_cons_of_mem _ hh)
      rw [hOut o ho2, data_setData_other _ _ _ _ ho1]

theorem deepcopyGraph_children_clone (s : St) (comp : List Nat) (o : Nat)
    (ho : o ∈ comp) :
    ((deepcopyGraph s comp).data (cloneMap s comp o)).children_nodes =
      ((s.data o).children_nodes).map (cloneMap s comp) := by
  rw [deepcopyGraph_data_clone s comp o ho]
  rfl

theorem deepcopyGraph_desc_clone (s : St) (comp : List Nat) (o : Nat)
    (ho : o ∈ comp) :
    ((deepcopyGraph s comp).data (cloneMap s comp o)).all_descendants =
      ((s.data o).all_descendants).map (cloneMap s comp) := by
  rw [deepcopyGraph_data_clone s comp o ho]
  rfl

theorem deepcopyGraph_pyid_clone (s : St) (comp : List Nat) (o : Nat)
    (ho : o ∈ comp) :
    ((deepcopyGraph s comp).data (cloneMap s comp o)).pyid =
      (s.data o).pyid := by
  rw [deepcopyGraph_data_clone s comp o ho]
  rfl

/-- Child paths of the original are simulated by the copies. -/
theorem reaches_clone (s : St) (comp : List Nat)
    (hclosed : ∀ v ∈ comp, ∀ y ∈ childAdj s v, y ∈ comp) (a b : Nat)
    (h : Reaches (childAdj s) a b) (ha : a ∈ comp) :
    Reaches (childAdj (deepcopyGraph s comp))
      (cloneMap s comp a) (cloneMap s comp b) := by
  induction h with
  | @step u v hv =>
    refine Reaches.step ?_
    show cloneMap s comp v ∈
      ((deepcopyGraph s comp).data (cloneMap s comp u)).children_nodes
    rw [deepcopyGraph_children_clone s comp u ha]
    exact List.mem_map_of_mem _ hv
  | @trans u v w hv hR ih =>
    have hvc : v ∈ comp := hclosed u ha v hv
    refine Reaches.trans ?_ (ih hvc)
    show cloneMap s comp v ∈
      ((deepcopyGraph s comp).data (cloneMap s comp u)).children_nodes
    rw [deepcopyGraph_children_clone s comp u ha]
    exact List.mem_map_of_mem _ hv

theorem deepcopyGraph_data_hi (s : St) (comp : List Nat) (x : Nat)
    (hx : s.nextObj ≤ x) :
    (deepcopyGraph s comp).data x =
      (match comp.get? (x - s.nextObj) with
       | some o =>
           remapNode (cloneMap s comp)
             (s.nextRef + 4 * (x - s.nextObj)) (s.data o)
       | none => s.data x) := by
  show (if s.nextObj ≤ x then _ else _) = _
  rw [if_pos hx]

/-- C6: Node.deepcopy_node with copy_children=True (node.py lines 218 to
245) on a live node n of a store built through the API returns a clone m
whose subtree is an isomorphic copy of n's subtree under a renaming of
object addresses: the copy's descendant cache and every copied node's
children list are the images of the originals, the renaming is injective
and lands outside the live objects, the uuids of the K+1 copies are
pairwise distinct and distinct from the uuid of every live original, and
every original object is left completely unchanged. -/
theorem C6_deepcopy_clones_subtree_with_fresh_ids (fuel : Nat) (s : St)
    (n : Nat) (s' : St) (m : Nat) (hB : Built s) (hn : n ∈ s.alloc)
    (h : deepcopy_node_true fuel s n = some (s', m)) :
    ∃ f : Nat → Nat,
      f n = m ∧
      (s'.data m).all_descendants = ((s.data n).all_descendants).map f ∧
      (∀ o ∈ n :: (s.data n).all_descendants,
        (s'.data (f o)).children_nodes =
          ((s.data o).children_nodes).map f) ∧
      (∀ o1 ∈ n :: (s.data n).all_descendants,
        ∀ o2 ∈ n :: (s.data n).all_descendants, f o1 = f o2 → o1 = o2) ∧
      (∀ o ∈ n :: (s.data n).all_descendants, f o ∉ s.alloc) ∧
      (∀ o1 ∈ n :: (s.data n).all_descendants,
        ∀ o2 ∈ n :: (s.data n).all_descendants, o1 ≠ o2 →
          (s'.data (f o1)).pyid ≠ (s'.data (f o2)).pyid) ∧
      (∀ o ∈ n :: (s.data n).all_descendants, ∀ o' ∈ s.alloc,
        (s'.data (f o)).pyid ≠ (s.data o').pyid) ∧
      (∀ o' ∈ s.alloc, s'.data o' = s.data o') := by
  have hI := inv_built s hB
  simp only [deepcopy_node_true] at h
  cases hcomp : componentOf fuel s n with
  | none => rw [hcomp] at h; simp at h
  | some comp =>
  rw [hcomp] at h
  dsimp only at h
  cases hreset : reset_ids fuel (deepcopyGraph s comp) (cloneMap s comp n) with
  | none => rw [hreset] at h; simp at h
  | some s2 =>
  rw [hreset] at h
  dsimp only at h
  cases htrunc : truncAncestors (cloneMap s comp n)
      (setData s2 (cloneMap s comp n)
        { s2.data (cloneMap s comp n) with all_ancestors := [] })
      (((setData s2 (cloneMap s comp n)
        { s2.data (cloneMap s comp n) with all_ancestors := [] }).data
          (cloneMap s comp n)).all_descendants) with
  | none => rw [htrunc] at h; simp at h
  | some s4 =>
  rw [htrunc] at h
  dsimp only at h
  rw [Option.some.injEq, Prod.mk.injEq] at h
  obtain ⟨hs4, hmn⟩ := h
  subst hs4
  have hcomp' : componentAux (deepcopyAdj s) fuel [n] [] = some comp := hcomp
  obtain ⟨hnd, hvis, hstk, hclo⟩ :=
    componentAux_spec (deepcopyAdj s) fuel [n] [] comp hcomp'
      List.nodup_nil (fun v hv => absurd hv (List.not_mem_nil v))
  have hncomp : n ∈ comp := hstk n (List.mem_cons_self _ _)
  have hcompalloc : ∀ v ∈ comp, v ∈ s.alloc := by
    refine componentAux_closed (deepcopyAdj s) (· ∈ s.alloc) ?_ fuel [n] []
      comp hcomp' ?_ ?_
    · intro x hx y hy
      simp only [deepcopyAdj] at hy
      rcases List.mem_append.mp hy with hy | hy
      · rcases List.mem_append.mp hy with hy | hy
        · rcases List.mem_append.mp hy with hy | hy
          · exact hI.childrenAlloc x y hy
          · exact hI.parentsAlloc x y hy
        · exact hI.descAlloc x y hy
      · exact hI.ancAlloc x y hy
    · intro x hx
      have hxn : x = n := by simpa using hx
      exact hxn ▸ hn
    · intro v hv
      exact absurd hv (List.not_mem_nil v)
  have childC : ∀ v ∈ comp, ∀ y ∈ childAdj s v, y ∈ comp := by
    intro v hv y hy
    refine hclo v hv y ?_
    simp only [deepcopyAdj]
    exact List.mem_append_left _
      (List.mem_append_left _ (List.mem_append_left _ hy))
  have hsubcomp : ∀ o ∈ n :: (s.data n).all_descendants, o ∈ comp := by
    intro o ho
    rcases List.mem_cons.mp ho with rfl | ho
    · exact hncomp
    · refine hclo n hncomp o ?_
      simp only [deepcopyAdj]
      exact List.mem_append_left _ (List.mem_append_right _ ho)
  have hbound1 : ∀ o, ((deepcopyGraph s comp).data o).pyid < s.nextUuid := by
    intro o
    obtain ⟨o', he, ho'⟩ := deepcopyGraph_pyid s comp o
    rw [he]
    rcases ho' with ho' | _
    · exact hI.uuidBound o' (hcompalloc o' ho')
    · by_cases ha : o' ∈ s.alloc
      · exact hI.uuidBound o' ha
      · rw [hI.unallocDefault o' ha]
        exact Nat.lt_of_le_of_lt (Nat.zero_le _) (hI.uuidBound n hn)
  have hW1 : UuidWindow s.nextUuid (deepcopyGraph s comp) := by
    refine ⟨le_refl _, ?_, ?_⟩
    · intro o
      rw [deepcopyGraph_nextUuid]
      exact hbound1 o
    · intro a b hab ha hb
      exact absurd ha (not_le.mpr (hbound1 a))
  have hreset' : reset_ids_aux fuel (deepcopyGraph s comp)
      [cloneMap s comp n] = some s2 := hreset
  obtain ⟨hW2, hle2, hshape2, hchg2, hcov2, hper2, hal2, hob2, hrf2, hhp2⟩ :=
    reset_ids_aux_spec s.nextUuid fuel [cloneMap s comp n]
      (deepcopyGraph s comp) s2 hreset' hW1
  have hch12 : ∀ o, (s2.data o).children_nodes =
      ((deepcopyGraph s comp).data o).children_nodes := by
    intro o
    rcases hshape2 o with he | ⟨he, _⟩
    · rw [he]
    · rw [he]
  have hde12 : ∀ o, (s2.data o).all_descendants =
      ((deepcopyGraph s comp).data o).all_descendants := by
    intro o
    rcases hshape2 o with he | ⟨he, _⟩
    · rw [he]
    · rw [he]
  have hA23 : AncOnly s2 (setData s2 (cloneMap s comp n)
      { s2.data (cloneMap s comp n) with all_ancestors := [] }) := by
    refine ⟨rfl, rfl, rfl, rfl, rfl, ?_⟩
    intro o
    by_cases ho : o = cloneMap s comp n
    · subst ho
      rw [data_setData_same]
    · rw [data_setData_other _ _ _ _ ho]
  obtain ⟨hA34, hout4⟩ := truncAncestors_spec (cloneMap s comp n) _ _ s4 htrunc
  have hA24 : AncOnly s2 s4 := hA23.trans hA34
  have hcovS : ∀ o ∈ n :: (s.data n).all_descendants,
      s.nextUuid ≤ (s2.data (cloneMap s comp o)).pyid := by
    intro o ho
    rcases List.mem_cons.mp ho with rfl | ho
    · exact hcov2 _ (Or.inl (List.mem_cons_self _ _))
    · have hR : Reaches (childAdj s) n o := (hI.descExact n o).mp ho
      have hRc := reaches_clone s comp childC n o hR hncomp
      exact hcov2 _ (Or.inr ⟨cloneMap s comp n, List.mem_cons_self _ _, hRc⟩)
  have hpyid4 : ∀ o, (s4.data o).pyid = (s2.data o).pyid :=
    fun o => hA24.pyid_eq o
  have horig : ∀ o' ∈ s.alloc, s4.data o' = s.data o' := by
    intro o' ho'
    have hlt : o' < s.nextObj := hI.allocBound o' ho'
    have h1 : (deepcopyGraph s comp).data o' = s.data o' :=
      deepcopyGraph_data_orig s comp o' hlt
    have hclosed1 : ∀ x, s.nextObj ≤ x →
        ∀ y ∈ childAdj (deepcopyGraph s comp) x, s.nextObj ≤ y := by
      intro x hx y hy
      have hd := deepcopyGraph_data_hi s comp x hx
      cases hg : comp.get? (x - s.nextObj) with
      | some o =>
        rw [hg] at hd
        have hoc : o ∈ comp := List.get?_mem hg
        have hcc : childAdj (deepcopyGraph s comp) x =
            ((s.data o).children_nodes).map (cloneMap s comp) := by
          show ((deepcopyGraph s comp).data x).children_nodes = _
          rw [hd]
          rfl
        rw [hcc] at hy
        obtain ⟨z, hz, hzz⟩ := List.mem_map.mp hy
        rw [← hzz]
        exact cloneMap_ge s comp z (childC o hoc z hz)
      | none =>
        rw [hg] at hd
        have hxa : x ∉ s.alloc :=
          fun hmem => absurd (hI.allocBound x hmem) (not_lt.mpr hx)
        have hcc : childAdj (deepcopyGraph s comp) x = [] := by
          show ((deepcopyGraph s comp).data x).children_nodes = _
          rw [hd, hI.unallocDefault x hxa]
          rfl
        rw [hcc] at hy
        exact absurd hy (List.not_mem_nil y)
    have h2 : s2.data o' = (deepcopyGraph s comp).data o' := by
      by_contra hne
      rcases hchg2 o' hne with hin | ⟨a, ha, hR⟩
      · have he : o' = cloneMap s comp n := by simpa using hin
        have hge := cloneMap_ge s comp n hncomp
        omega
      · have ha' : a = cloneMap s comp n := by simpa using ha
        subst ha'
        have hge : s.nextObj ≤ o' :=
          reaches_closed (childAdj (deepcopyGraph s comp)) (s.nextObj ≤ ·)
            hclosed1 (cloneMap_ge s comp n hncomp) hR
        omega
    have h3 : (setData s2 (cloneMap s comp n)
        { s2.data (cloneMap s comp n) with all_ancestors := [] }).data o' =
        s2.data o' := by
      refine data_setData_other _ _ _ _ ?_
      intro he
      have hge := cloneMap_ge s comp n hncomp
      omega
    have hnm : o' ∉ (((setData s2 (cloneMap s comp n)
        { s2.data (cloneMap s comp n) with all_ancestors := [] }).data
          (cloneMap s comp n)).all_descendants) := by
      have hL3 : (((setData s2 (cloneMap s comp n)
          { s2.data (cloneMap s comp n) with all_ancestors := [] }).data
            (cloneMap s comp n)).all_descendants) =
          ((s.data n).all_descendants).map (cloneMap s comp) := by
        rw [data_setData_same]
        show (s2.data (cloneMap s comp n)).all_descendants = _
        rw [hde12, deepcopyGraph_desc_clone s comp n hncomp]
      rw [hL3]
      intro hmem
      obtain ⟨z, hz, hzz⟩ := List.mem_map.mp hmem
      have hzc : z ∈ comp := hsubcomp z (List.mem_cons_of_mem _ hz)
      have hge := cloneMap_ge s comp z hzc
      omega
    exact ((hout4 o' hnm).trans h3).trans (h2.trans h1)
  refine ⟨cloneMap s comp, hmn, ?_, ?_, ?_, ?_, ?_, ?_, horig⟩
  · rw [← hmn, hA24.desc_eq, hde12, deepcopyGraph_desc_clone s comp n hncomp]
  · intro o ho
    have hoc : o ∈ comp := hsubcomp o ho
    rw [hA24.children_eq, hch12, deepcopyGraph_children_clone s comp o hoc]
  · intro o1 h1' o2 h2' he
    exact cloneMap_inj_on s comp o1 o2 (hsubcomp o1 h1') (hsubcomp o2 h2') he
  · intro o ho hmem
    have hge := cloneMap_ge s comp o (hsubcomp o ho)
    have hlt := hI.allocBound _ hmem
    omega
  · intro o1 h1' o2 h2' hne
    have hne' : cloneMap s comp o1 ≠ cloneMap s comp o2 := by
      intro he
      exact hne (cloneMap_inj_on s comp o1 o2 (hsubcomp o1 h1')
        (hsubcomp o2 h2') he)
    have hd := hW2.2.2 (cloneMap s comp o1) (cloneMap s comp o2) hne'
      (hcovS o1 h1') (hcovS o2 h2')
    rw [hpyid4, hpyid4]
    exact hd
  · intro o ho o' ho'
    have hcov := hcovS o ho
    have hub := hI.uuidBound o' ho'
    rw [hpyid4]
    intro he
    omega

/-- Concrete two-node store for the C6 witness: p with child q. -/
def c6base : St :=
  (newNode (newNode emptySt "group" "p" [0, 0, 0] [0, 0, 0]).1
    "group" "q" [0, 0, 0] [0, 0, 0]).1

/-- Store after the successful call p.add_child(q). -/
def c6demo : St := (okState (addChildCore 9 c6base 0 1)).getD emptySt

theorem c6demo_built : Built c6demo := by
  have h1 : Built c6base :=
    Built.node _ _ _ _ _ (Built.node _ _ _ _ _ Built.init)
  exact Built.add c6base c6demo 9 0 1 h1 (by decide) (by rfl)

/-- Result of deepcopying node 0 of the two-node store with its child. -/
def c6out : St × Nat := (deepcopy_node_true 30 c6demo 0).getD (emptySt, 0)

/-- Witness for C6 on the concrete two-node store. -/
theorem C6_deepcopy_witness :
    Built c6demo ∧ 0 ∈ c6demo.alloc ∧
    (∃ f : Nat → Nat,
      f 0 = c6out.2 ∧
      ((c6out.1).data c6out.2).all_descendants =
        ((c6demo.data 0).all_descendants).map f ∧
      (∀ o ∈ 0 :: (c6demo.data 0).all_descendants,
        ((c6out.1).data (f o)).children_nodes =
          ((c6demo.data o).children_nodes).map f) ∧
      (∀ o1 ∈ 0 :: (c6demo.data 0).all_descendants,
        ∀ o2 ∈ 0 :: (c6demo.data 0).all_descendants,
          f o1 = f o2 → o1 = o2) ∧
      (∀ o ∈ 0 :: (c6demo.data 0).all_descendants, f o ∉ c6demo.alloc) ∧
      (∀ o1 ∈ 0 :: (c6demo.data 0).all_descendants,
        ∀ o2 ∈ 0 :: (c6demo.data 0).all_descendants, o1 ≠ o2 →
          ((c6out.1).data (f o1)).pyid ≠ ((c6out.1).data (f o2)).pyid) ∧
      (∀ o ∈ 0 :: (c6demo.data 0).all_descendants, ∀ o' ∈ c6demo.alloc,
        ((c6out.1).data (f o)).pyid ≠ (c6demo.data o').pyid) ∧
      (∀ o' ∈ c6demo.alloc, (c6out.1).data o' = c6demo.data o')) :=
  ⟨c6demo_built, by decide,
    C6_deepcopy_clones_subtree_with_fresh_ids 30 c6demo 0 c6out.1 c6out.2
      c6demo_built (by decide) (by rfl)⟩

end Npx
